import Mathlib

/-!
Verification of the vercont repository model (`vc.py`).

The Python classes `File`, `Directory`, `Revision`, `Branch` and `Repository`
are embedded shallowly:

* bytes are `List Nat`; the zlib-compressed buffer stored in `File._data` is a
  `CBuf`, carrying the decompressed content (zlib compression round-trips) and
  an allocation identifier `bufId` that models Python object identity: every
  call of `zlib.compress` yields a fresh buffer object, modelled by drawing
  `bufId` from a counter threaded through commits, while the sharing assignment
  `self._data = self.prevfile._data` copies the `CBuf` unchanged;
* the filesystem seen through `os.listdir` / `os.path.isdir` / `open` is a
  finite tree `FSTree`; a file entry carries a `readable` flag so that the
  `IOError` a read can raise is representable;
* Python dicts are association lists operated through `lookupA` (`dict.get`)
  and `setA` (`dict.__setitem__`); insertion order matches iteration order,
  exactly as in Python;
* mutating methods become functions that return the new state; a method that
  can raise returns `Except VcError`; a method that mutates and can raise
  returns the state at the moment of the raise together with the outcome
  (Python exceptions leave already-performed mutations in place);
* `time.time()` is an explicit `now` argument; `os.sep` is `"/"`.
-/

/-- Error taxonomy of `vc.py` (`NoSuchRevisionError`, `NotDirectoryError`,
`NoSuchBranchError`, `BranchExistsError`), plus `ioFailure` for a propagated
`IOError`/`OSError` and `keyError` for an uncaught dict `KeyError`. -/
inductive VcError where
  | noSuchRevision (num : Int)
  | notDirectory (path : String)
  | noSuchBranch (name : String)
  | branchExists (name : String)
  | ioFailure
  | keyError (name : String)
  deriving Repr, DecidableEq

/-- Does the string start with the separator `/`? (`str.startswith(os.sep)`.) -/
def startsSep (s : String) : Bool :=
  s.data.head? == some '/'

/-- Does the string end with the separator `/`? (`str.endswith(os.sep)`.) -/
def endsSep (s : String) : Bool :=
  s.data.getLast? == some '/'

/-- `os.path.join(a, b)` for a single relative-or-absolute component `b`. -/
def pyJoin (a b : String) : String :=
  if startsSep b then b
  else if a = "" then b
  else if endsSep a then a ++ b
  else a ++ "/" ++ b

/-- `str.rstrip(os.sep)`: drop every trailing `/`. -/
def rstripSep (s : String) : String :=
  ⟨(s.data.reverse.dropWhile (· = '/')).reverse⟩

/-- The suffix of `s` after its last `/`: `os.path.split(s)[1]`. -/
def baseNameAux : List Char → List Char → List Char
  | acc, [] => acc
  | acc, c :: cs => if c = '/' then baseNameAux [] cs else baseNameAux (acc ++ [c]) cs

/-- `os.path.split(s)[1]`, the last path component. -/
def baseName (s : String) : String :=
  ⟨baseNameAux [] s.data⟩

/-- The path normalisation done by `Branch._set_path`:
`if path.endswith(os.sep): path = path.rstrip(os.sep)`. -/
def normPath (s : String) : String :=
  if endsSep s then rstripSep s else s

/-- `dict.get k`: first binding of `k` in an association list, if any. -/
def lookupA {α : Type} : List (String × α) → String → Option α
  | [], _ => none
  | (k', v) :: rest, k => if k' = k then some v else lookupA rest k

/-- `dict[k] = v`: replace the binding of `k`, or append a new one. -/
def setA {α : Type} : List (String × α) → String → α → List (String × α)
  | [], k, v => [(k, v)]
  | (k', v') :: rest, k, v =>
      if k' = k then (k, v) :: rest else (k', v') :: setA rest k v

/-- `del dict[k]`: remove the first binding of `k`. -/
def removeA {α : Type} : List (String × α) → String → List (String × α)
  | [], _ => []
  | (k', v') :: rest, k => if k' = k then rest else (k', v') :: removeA rest k

/-- A stored compressed buffer: `bufId` models the Python object identity of
the `zlib.compress` result, `bytes` its decompressed content. -/
structure CBuf where
  bufId : Nat
  bytes : List Nat
  deriving Repr, DecidableEq

/-- A committed `File` node: `name`, the stored buffer `data` (`File._data`),
and the `mtime` recorded by `File.commit`.  The `prevfile` back-reference is
not stored: it is dead after commit and is passed to `commitFile` directly. -/
structure FileN where
  name : String
  data : CBuf
  mtime : Nat
  deriving Repr, DecidableEq

/-- A `Directory` node: `name`, the `files` dict and the `dirs` dict.  The
`parent` back-pointer is replaced by the context-path arguments of `eqFile` /
`eqDir`, and `prevdir` is passed to `commitDir` directly. -/
inductive DirN where
  | mk (name : String) (files : List (String × FileN)) (dirs : List (String × DirN))

def DirN.name : DirN → String
  | .mk n _ _ => n

def DirN.files : DirN → List (String × FileN)
  | .mk _ fs _ => fs

def DirN.dirs : DirN → List (String × DirN)
  | .mk _ _ ds => ds

/-- The live filesystem under one directory: what `os.listdir` and
`os.path.isdir` observe.  `readable = false` makes `open`/`os.path.getmtime`
raise, modelling an I/O failure during capture. -/
inductive FSTree where
  | file (content : List Nat) (mtime : Nat) (readable : Bool)
  | dir (entries : List (String × FSTree))

/-- `os.path.isdir` on what sits at a path (`none` = nothing there). -/
def isDirOpt : Option FSTree → Bool
  | some (.dir _) => true
  | _ => false

/-- `Directory.path()`: the name alone for a parentless root, otherwise
`os.path.join(parent.path(), name)`. -/
def dpath : Option String → String → String
  | none, n => n
  | some p, n => pyJoin p n

/-- `File.__eq__`: compares decompressed data, name, and full `path()`;
`p1`, `p2` are the paths of the two containing directories. -/
def eqFile (p1 p2 : String) (f g : FileN) : Bool :=
  f.data.bytes == g.data.bytes && f.name == g.name
    && pyJoin p1 f.name == pyJoin p2 g.name

/-- The `for fkey in self.files` loop of `Directory.__eq__`: every key of the
first dict must be present in the second with an `__eq__`-equal value. -/
def eqFiles (p1 p2 : String) : List (String × FileN) → List (String × FileN) → Bool
  | [], _ => true
  | (k, f) :: rest, other =>
      (match lookupA other k with
       | none => false
       | some g => eqFile p1 p2 f g)
      && eqFiles p1 p2 rest other

mutual
/-- `Directory.__eq__`: name, sizes of both dicts and `path()` first, then the
two membership-and-equality loops.  `c1`, `c2` are the parent paths (`none`
for a parentless root). -/
def eqDir (c1 c2 : Option String) : DirN → DirN → Bool
  | .mk n1 fs1 ds1, .mk n2 fs2 ds2 =>
    (n1 == n2 && fs1.length == fs2.length && ds1.length == ds2.length
      && dpath c1 n1 == dpath c2 n2)
    && eqFiles (dpath c1 n1) (dpath c2 n2) fs1 fs2
    && eqDirs (some (dpath c1 n1)) (some (dpath c2 n2)) ds1 ds2

/-- The `for dkey in self.dirs` loop of `Directory.__eq__`. -/
def eqDirs (p1 p2 : Option String) : List (String × DirN) → List (String × DirN) → Bool
  | [], _ => true
  | (k, d) :: rest, other =>
      (match lookupA other k with
       | none => false
       | some od => eqDir p1 p2 d od)
      && eqDirs p1 p2 rest other
end

/-- `File.commit`: read the on-disk bytes; if a predecessor exists whose
decompressed data equals them, alias its stored buffer (`self._data =
self.prevfile._data`), otherwise compress afresh — modelled by a new `CBuf`
with the next free `bufId`. -/
def commitFile (name : String) (prevfile : Option FileN) (content : List Nat)
    (mt : Nat) (cnt : Nat) : FileN × Nat :=
  match prevfile with
  | some pf =>
      if content = pf.data.bytes then (⟨name, pf.data, mt⟩, cnt)
      else (⟨name, ⟨cnt, content⟩, mt⟩, cnt + 1)
  | none => (⟨name, ⟨cnt, content⟩, mt⟩, cnt + 1)

/-- `self.prevdir.files.get(entry)` when a predecessor directory exists. -/
def prevFileOf (prev : Option DirN) (ename : String) : Option FileN :=
  match prev with
  | some p => lookupA p.files ename
  | none => none

/-- `self.prevdir.dirs.get(entry)` when a predecessor directory exists. -/
def prevDirOf (prev : Option DirN) (ename : String) : Option DirN :=
  match prev with
  | some p => lookupA p.dirs ename
  | none => none

mutual
/-- `Directory.commit`: list the live entries and fill the two dicts, passing
each child the predecessor's same-named child.  Any child failure aborts the
whole capture (the Python exception propagates). -/
def commitDir (name : String) (prev : Option DirN)
    (entries : List (String × FSTree)) (cnt : Nat) :
    Except VcError (DirN × Nat) :=
  match commitEntries prev entries [] [] cnt with
  | .error e => .error e
  | .ok (files, dirs, cnt') => .ok (.mk name files dirs, cnt')

/-- The `for entry in os.listdir(path)` loop of `Directory.commit`,
carrying the partially filled `files` and `dirs` dicts. -/
def commitEntries (prev : Option DirN) (entries : List (String × FSTree))
    (files : List (String × FileN)) (dirs : List (String × DirN)) (cnt : Nat) :
    Except VcError (List (String × FileN) × List (String × DirN) × Nat) :=
  match entries with
  | [] => .ok (files, dirs, cnt)
  | (ename, .file content mt rb) :: rest =>
      if rb then
        let fc := commitFile ename (prevFileOf prev ename) content mt cnt
        commitEntries prev rest (setA files ename fc.1) dirs fc.2
      else .error .ioFailure
  | (ename, .dir sub) :: rest =>
      match commitDir ename (prevDirOf prev ename) sub cnt with
      | .error e => .error e
      | .ok (d, cnt') => commitEntries prev rest files (setA dirs ename d) cnt'
end

/-- `File.update`: `open(path, 'wb')` then write the decompressed bytes.
Opening an existing directory for writing raises; otherwise the file is
created or truncated. -/
def updateFileInto (f : FileN) (es : List (String × FSTree)) :
    Except VcError (List (String × FSTree)) :=
  match lookupA es f.name with
  | some (.dir _) => .error .ioFailure
  | _ => .ok (setA es f.name (.file f.data.bytes 0 true))

/-- The `for name in self.files` loop of `Directory.update`. -/
def updateFiles : List (String × FileN) → List (String × FSTree) →
    Except VcError (List (String × FSTree))
  | [], es => .ok es
  | (_, f) :: rest, es =>
      match updateFileInto f es with
      | .error e => .error e
      | .ok es' => updateFiles rest es'

mutual
/-- `Directory.update`: ensure `dest/name` is a directory (`os.mkdir` raises on
an existing non-directory), then restore every file child and every directory
child into it.  `dest` is the entry list of the destination's parent. -/
def updateDir (d : DirN) (dest : List (String × FSTree)) :
    Except VcError (List (String × FSTree)) :=
  match d with
  | .mk name files dirs =>
    match
      (match lookupA dest name with
       | some (.dir es0) => Except.ok es0
       | some (.file _ _ _) => Except.error VcError.ioFailure
       | none => Except.ok ([] : List (String × FSTree))) with
    | .error e => .error e
    | .ok es0 =>
      match updateFiles files es0 with
      | .error e => .error e
      | .ok es1 =>
        match updateDirs dirs es1 with
        | .error e => .error e
        | .ok es2 => .ok (setA dest name (.dir es2))

/-- The `for name in self.dirs` loop of `Directory.update`. -/
def updateDirs : List (String × DirN) → List (String × FSTree) →
    Except VcError (List (String × FSTree))
  | [], es => .ok es
  | (_, d) :: rest, es =>
      match updateDir d es with
      | .error e => .error e
      | .ok es' => updateDirs rest es'
end

/-- One `Revision`: sequence number, description, creation time, root node.
The `prev` back-reference is recovered from the owning branch's list. -/
structure RevisionM where
  num : Nat
  desc : Option String
  time : Nat
  root : DirN

/-- `Revision.commit`: build a root `Directory` named after the last component
of the branch path and capture it from the live entries, against the previous
revision's root. -/
def revisionCommit (num : Nat) (desc : Option String) (now : Nat)
    (prev : Option RevisionM) (rootName : String)
    (entries : List (String × FSTree)) (cnt : Nat) :
    Except VcError (RevisionM × Nat) :=
  match commitDir rootName (prev.map (·.root)) entries cnt with
  | .error e => .error e
  | .ok (root, cnt') => .ok (⟨num, desc, now, root⟩, cnt')

/-- `Revision.same_as_prev`: a previous revision exists and the two roots are
`Directory.__eq__`-equal (both roots are parentless). -/
def sameAsPrev (root : DirN) (prev : Option RevisionM) : Bool :=
  match prev with
  | none => false
  | some p => eqDir none none root p.root

/-- `Revision.update`: restore the root into the parent directory of the
branch path (`self.root.update(os.path.split(path)[0])`). -/
def revisionUpdate (r : RevisionM) (parent : List (String × FSTree)) :
    Except VcError (List (String × FSTree)) :=
  updateDir r.root parent

/-- A `Branch`: name, normalised monitored path, revision list, and the
allocation counter `cnt` for fresh compressed buffers (a model artefact
standing for the Python heap, used only to mint `CBuf.bufId`). -/
structure BranchM where
  name : String
  path : String
  revisions : List RevisionM
  cnt : Nat

/-- `Branch.__init__`: check the path is a directory, then store it through
the `path` property setter (which normalises it; the revision list is empty,
so the setter's renaming loop does nothing). -/
def branchInit (name path : String) (fsAtPath : Option FSTree) :
    Except VcError BranchM :=
  if isDirOpt fsAtPath then
    .ok { name := name, path := normPath path, revisions := [], cnt := 0 }
  else .error (.notDirectory path)

/-- `Branch._set_path`: strip trailing separators, store the path, and rename
the root node of every existing revision to the new last path component. -/
def branchSetPath (b : BranchM) (path : String) : BranchM :=
  let path := normPath path
  let root := baseName path
  { b with
    path := path
    revisions := b.revisions.map fun r =>
      { r with root := .mk root r.root.files r.root.dirs } }

/-- `Branch.commit`: require the monitored path to be a directory, capture a
candidate revision numbered `len(revisions)` against the last revision, and
append it only if it is not `same_as_prev`.  Returns the branch state at exit
together with the outcome (`true` = something new was appended). -/
def branchCommit (b : BranchM) (fsAtPath : Option FSTree)
    (desc : Option String) (now : Nat) : BranchM × Except VcError Bool :=
  match fsAtPath with
  | some (.dir es) =>
    let num := b.revisions.length
    let prev := b.revisions.getLast?
    match revisionCommit num desc now prev (baseName b.path) es b.cnt with
    | .error e => (b, .error e)
    | .ok (v, cnt') =>
      if sameAsPrev v.root prev then
        ({ b with cnt := cnt' }, .ok false)
      else
        ({ b with revisions := b.revisions ++ [v], cnt := cnt' }, .ok true)
  | _ => (b, .error (.notDirectory b.path))

/-- `Branch.has_revision`: `num in range(-len(revisions), len(revisions))`. -/
def hasRevision (b : BranchM) (num : Int) : Bool :=
  decide (-(b.revisions.length : Int) ≤ num ∧ num < (b.revisions.length : Int))

/-- Python list indexing `l[i]` with negative wrap-around, as an `Option`. -/
def pyGet {α : Type} (l : List α) (i : Int) : Option α :=
  if 0 ≤ i then l[i.toNat]?
  else if 0 ≤ i + l.length then l[(i + l.length).toNat]?
  else none

/-- `Branch.update`: check `has_revision`, then restore `revisions[num]` onto
the monitored path; `parent` is the entry list of the path's parent
directory.  The branch object itself is not mutated. -/
def branchUpdate (b : BranchM) (num : Int) (parent : List (String × FSTree)) :
    Except VcError (List (String × FSTree)) :=
  if hasRevision b num then
    match pyGet b.revisions num with
    | some r => revisionUpdate r parent
    | none => .error (.noSuchRevision num)
  else .error (.noSuchRevision num)

/-- The model-version tag `__modelversion__` of `vc.py`. -/
def modelVersion : String := "0.3.3"

/-- A `Repository`: default branch name, branch dict, format version. -/
structure RepositoryM where
  defbranch : String
  branches : List (String × BranchM)
  ver : String

/-- `Repository.__init__`: one initial branch, named by `defbranch` or
`'trunk'`, bound to `path` (whose directory-ness the branch checks). -/
def repoInit (path : String) (defbranch : Option String)
    (fsAtPath : Option FSTree) : Except VcError RepositoryM :=
  let db := match defbranch with
    | some d => d
    | none => "trunk"
  match branchInit db path fsAtPath with
  | .error e => .error e
  | .ok b => .ok { defbranch := db, branches := [(db, b)], ver := modelVersion }

/-- `Repository.has_branch`. -/
def repoHasBranch (r : RepositoryM) (name : String) : Bool :=
  (lookupA r.branches name).isSome

/-- `Repository.add_branch`: fail if the name exists, else create a fresh
branch bound to `path`. -/
def repoAddBranch (r : RepositoryM) (name path : String)
    (fsAtPath : Option FSTree) : Except VcError RepositoryM :=
  if repoHasBranch r name then .error (.branchExists name)
  else
    match branchInit name path fsAtPath with
    | .error e => .error e
    | .ok b => .ok { r with branches := setA r.branches name b }

/-- `Repository.remove_branch`: fail if the name is absent, else delete the
branch — the default branch included, nothing stops that here. -/
def repoRemoveBranch (r : RepositoryM) (name : String) :
    Except VcError RepositoryM :=
  if repoHasBranch r name then .ok { r with branches := removeA r.branches name }
  else .error (.noSuchBranch name)

/-- `Repository._set_defbranch`: the target must exist. -/
def repoSetDefbranch (r : RepositoryM) (name : String) :
    Except VcError RepositoryM :=
  if repoHasBranch r name then .ok { r with defbranch := name }
  else .error (.noSuchBranch name)

/-- `Repository.commit`: an explicit branch name is checked with
`_check_branch`; otherwise the default branch is used unchecked, so a dangling
default raises `KeyError` at `self.branches[branchname]`. -/
def repoCommit (r : RepositoryM) (desc : Option String)
    (branchname : Option String) (fsAtPath : Option FSTree) (now : Nat) :
    RepositoryM × Except VcError Bool :=
  let go : String → RepositoryM × Except VcError Bool := fun bn =>
    match lookupA r.branches bn with
    | some b =>
      let bc := branchCommit b fsAtPath desc now
      ({ r with branches := setA r.branches bn bc.1 }, bc.2)
    | none => (r, .error (.keyError bn))
  match branchname with
  | some bn =>
      if repoHasBranch r bn then go bn else (r, .error (.noSuchBranch bn))
  | none => go r.defbranch

/-- `Repository.update`: resolve the branch like `Repository.commit` and
delegate to `Branch.update`; the repository object is not mutated. -/
def repoUpdate (r : RepositoryM) (revno : Int) (branchname : Option String)
    (parent : List (String × FSTree)) :
    Except VcError (List (String × FSTree)) :=
  let go : String → Except VcError (List (String × FSTree)) := fun bn =>
    match lookupA r.branches bn with
    | some b => branchUpdate b revno parent
    | none => .error (.keyError bn)
  match branchname with
  | some bn =>
      if repoHasBranch r bn then go bn else .error (.noSuchBranch bn)
  | none => go r.defbranch

/-! ### Auxiliary notions used to state and prove the claims -/

/-- Keys of an association list are pairwise distinct (what Python dicts
guarantee by construction). -/
def nodupKeys {α : Type} : List (String × α) → Bool
  | [] => true
  | (k, _) :: rest => (lookupA rest k).isNone && nodupKeys rest

mutual
/-- Dict well-formedness of a committed tree: in both child dicts the binding
key equals the node's `name`, keys are distinct, and the same holds below.
Every tree built by `Directory.commit` satisfies this. -/
def wfKeysDir : DirN → Bool
  | .mk _ files dirs =>
    nodupKeys files && nodupKeys dirs
      && files.all (fun kf => kf.1 == kf.2.name)
      && dirs.all (fun kd => kd.1 == kd.2.name)
      && wfKeysDirs dirs

def wfKeysDirs : List (String × DirN) → Bool
  | [] => true
  | (_, d) :: rest => wfKeysDir d && wfKeysDirs rest
end

mutual
/-- No name is both a file child and a directory child, recursively.  Holds
for trees committed from a duplicate-free filesystem (a real one). -/
def disjDir : DirN → Bool
  | .mk _ files dirs =>
    files.all (fun kf => (lookupA dirs kf.1).isNone) && disjDirs dirs

def disjDirs : List (String × DirN) → Bool
  | [] => true
  | (_, d) :: rest => disjDir d && disjDirs rest
end

/-- Full tree well-formedness: dict well-formedness plus file/dir
disjointness. -/
def wfTree (d : DirN) : Bool :=
  wfKeysDir d && disjDir d

mutual
/-- Entry names of a live filesystem tree are pairwise distinct at every
level, as `os.listdir` guarantees. -/
def wfFS : FSTree → Bool
  | .file _ _ _ => true
  | .dir entries => nodupKeys entries && wfFSList entries

def wfFSList : List (String × FSTree) → Bool
  | [] => true
  | (_, t) :: rest => wfFS t && wfFSList rest
end

/-- Erase the buffer identity and recorded mtime of one file node, keeping
exactly the data `File.__eq__` can observe. -/
def stripFile (f : FileN) : FileN :=
  ⟨f.name, ⟨0, f.data.bytes⟩, 0⟩

/-- `stripFile` applied across a file dict. -/
def stripFiles (l : List (String × FileN)) : List (String × FileN) :=
  l.map fun kf => (kf.1, stripFile kf.2)

mutual
/-- Erase every buffer identity (and recorded mtime) in a tree, keeping
exactly the data `Directory.__eq__` can observe. -/
def stripDir : DirN → DirN
  | .mk name files dirs =>
    .mk name (stripFiles files) (stripDirs dirs)

def stripDirs : List (String × DirN) → List (String × DirN)
  | [] => []
  | (k, d) :: rest => (k, stripDir d) :: stripDirs rest
end

mutual
/-- The capture of a live entry list up to buffer identity: the tree
`Directory.commit` builds depends on the predecessor and the allocation
counter only through the minted `bufId`s, so its `stripDir` image is this
predecessor-free function of the filesystem alone. -/
def shapeDir (name : String) (entries : List (String × FSTree)) :
    Except VcError DirN :=
  match shapeEntries entries [] [] with
  | .error e => .error e
  | .ok (files, dirs) => .ok (.mk name files dirs)

def shapeEntries (entries : List (String × FSTree))
    (files : List (String × FileN)) (dirs : List (String × DirN)) :
    Except VcError (List (String × FileN) × List (String × DirN)) :=
  match entries with
  | [] => .ok (files, dirs)
  | (ename, .file content _ rb) :: rest =>
      if rb then shapeEntries rest (setA files ename ⟨ename, ⟨0, content⟩, 0⟩) dirs
      else .error .ioFailure
  | (ename, .dir sub) :: rest =>
      match shapeDir ename sub with
      | .error e => .error e
      | .ok d => shapeEntries rest files (setA dirs ename d)
end

/-- Resolve a path (list of components) inside a live entry list. -/
def fsAt : List (String × FSTree) → List String → Option FSTree
  | _, [] => none
  | es, n :: rest =>
    match lookupA es n, rest with
    | some t, [] => some t
    | some (.dir sub), _ => fsAt sub rest
    | _, _ => none

/-- Does the subtree of `d` contain the (possibly empty) relative path:
a file child ends a path, a directory child continues it. -/
def hasRel (d : DirN) : List String → Bool
  | [] => true
  | n :: rest =>
    match lookupA d.files n with
    | some _ => rest.isEmpty
    | none =>
      match lookupA d.dirs n with
      | some sub => hasRel sub rest
      | none => false

/-- Does the restored tree of root `d` claim the path `p` (relative to the
directory `d` is restored into)? -/
def treeHas (d : DirN) (p : List String) : Bool :=
  match p with
  | [] => false
  | n :: rest => n == d.name && hasRel d rest

/-- The file node reached from `d` by descending directory children along
`p` and then looking up `n` in the file dict. -/
def fileAt (d : DirN) : List String → String → Option FileN
  | [], n => lookupA d.files n
  | m :: rest, n =>
    match lookupA d.dirs m with
    | some sub => fileAt sub rest n
    | none => none

mutual
/-- The entry list `Directory.update` produces when restoring `d` into an
empty directory: the files in dict order, then the directories. -/
def restoredEntries : DirN → List (String × FSTree)
  | .mk _ files dirs =>
    files.map (fun kf => (kf.2.name, .file kf.2.data.bytes 0 true))
      ++ restoredDirs dirs

def restoredDirs : List (String × DirN) → List (String × FSTree)
  | [] => []
  | (_, d) :: rest => (d.name, .dir (restoredEntries d)) :: restoredDirs rest
end

/-- File-node equality as the specification words it, amended by the full
path of the node (`File.__eq__` compares it too): same name, same
decompressed content, same `path()`. -/
def SpecEqFile (p1 p2 : String) (f g : FileN) : Prop :=
  f.name = g.name ∧ f.data.bytes = g.data.bytes ∧ pyJoin p1 f.name = pyJoin p2 g.name

/-- Directory-node equality as the specification words it, amended by the
full path: same name, same path, same child-name sets, and pairwise-equal
children (recursively); child order plays no role. -/
inductive SpecEqDir : Option String → Option String → DirN → DirN → Prop where
  | intro {c1 c2 : Option String} {n1 n2 : String}
      {fs1 fs2 : List (String × FileN)} {ds1 ds2 : List (String × DirN)} :
      n1 = n2 →
      dpath c1 n1 = dpath c2 n2 →
      (∀ k, (lookupA fs1 k).isSome ↔ (lookupA fs2 k).isSome) →
      (∀ k f g, lookupA fs1 k = some f → lookupA fs2 k = some g →
        SpecEqFile (dpath c1 n1) (dpath c2 n2) f g) →
      (∀ k, (lookupA ds1 k).isSome ↔ (lookupA ds2 k).isSome) →
      (∀ k s t, lookupA ds1 k = some s → lookupA ds2 k = some t →
        SpecEqDir (some (dpath c1 n1)) (some (dpath c2 n2)) s t) →
      SpecEqDir c1 c2 (.mk n1 fs1 ds1) (.mk n2 fs2 ds2)

/-- Branch states reachable through the public operations.  `Branch.update`
does not mutate the branch, so it contributes no step. -/
inductive BranchReach : BranchM → Prop where
  | init (name path : String) (fs : Option FSTree) (b : BranchM) :
      branchInit name path fs = .ok b → BranchReach b
  | commit (b : BranchM) (fs : Option FSTree) (desc : Option String) (now : Nat) :
      BranchReach b → BranchReach (branchCommit b fs desc now).1
  | setPath (b : BranchM) (p : String) :
      BranchReach b → BranchReach (branchSetPath b p)

/-- Repository states reachable through the public operations.
`Repository.update` does not mutate the repository. -/
inductive RepoReach : RepositoryM → Prop where
  | init (path : String) (db : Option String) (fs : Option FSTree) (r : RepositoryM) :
      repoInit path db fs = .ok r → RepoReach r
  | add (r : RepositoryM) (name path : String) (fs : Option FSTree) (r' : RepositoryM) :
      RepoReach r → repoAddBranch r name path fs = .ok r' → RepoReach r'
  | remove (r : RepositoryM) (name : String) (r' : RepositoryM) :
      RepoReach r → repoRemoveBranch r name = .ok r' → RepoReach r'
  | setDef (r : RepositoryM) (name : String) (r' : RepositoryM) :
      RepoReach r → repoSetDefbranch r name = .ok r' → RepoReach r'
  | commit (r : RepositoryM) (desc : Option String) (bn : Option String)
      (fs : Option FSTree) (now : Nat) :
      RepoReach r → RepoReach (repoCommit r desc bn fs now).1

/-- Repository states reachable when `remove_branch` is never applied to the
current default branch — the discipline the command layer enforces. -/
inductive RepoReachSafe : RepositoryM → Prop where
  | init (path : String) (db : Option String) (fs : Option FSTree) (r : RepositoryM) :
      repoInit path db fs = .ok r → RepoReachSafe r
  | add (r : RepositoryM) (name path : String) (fs : Option FSTree) (r' : RepositoryM) :
      RepoReachSafe r → repoAddBranch r name path fs = .ok r' → RepoReachSafe r'
  | remove (r : RepositoryM) (name : String) (r' : RepositoryM) :
      RepoReachSafe r → name ≠ r.defbranch →
      repoRemoveBranch r name = .ok r' → RepoReachSafe r'
  | setDef (r : RepositoryM) (name : String) (r' : RepositoryM) :
      RepoReachSafe r → repoSetDefbranch r name = .ok r' → RepoReachSafe r'
  | commit (r : RepositoryM) (desc : Option String) (bn : Option String)
      (fs : Option FSTree) (now : Nat) :
      RepoReachSafe r → RepoReachSafe (repoCommit r desc bn fs now).1

/-! ### Small dictionary lemmas -/

theorem lookupA_setA {α : Type} (l : List (String × α)) (k k' : String) (v : α) :
    lookupA (setA l k v) k' = if k = k' then some v else lookupA l k' := by
  induction l with
  | nil => by_cases h : k = k' <;> simp [setA, lookupA, h]
  | cons hd tl ih =>
    obtain ⟨k0, v0⟩ := hd
    by_cases h0 : k0 = k
    · by_cases h : k = k' <;> simp [setA, lookupA, h0, h]
    · by_cases h : k0 = k'
      · subst h
        have : ¬ k = k0 := fun hh => h0 hh.symm
        simp [setA, lookupA, h0, this]
      · simp [setA, lookupA, h0, h, ih]

theorem lookupA_removeA_ne {α : Type} (l : List (String × α)) (k k' : String)
    (h : k ≠ k') : lookupA (removeA l k) k' = lookupA l k' := by
  induction l with
  | nil => simp [removeA, lookupA]
  | cons hd tl ih =>
    obtain ⟨k0, v0⟩ := hd
    by_cases h0 : k0 = k
    · subst h0
      simp [removeA, lookupA, h]
    · simp [removeA, lookupA, h0, ih]

/-! ### Every error produced during restore or capture is an I/O failure -/

theorem updateFileInto_error (f : FileN) (es : List (String × FSTree)) (e : VcError)
    (h : updateFileInto f es = .error e) : e = .ioFailure := by
  unfold updateFileInto at h
  rcases hl : lookupA es f.name with _ | t
  · simp [hl] at h
  · cases t <;> simp [hl] at h
    exact h.symm

theorem updateFiles_error (fs : List (String × FileN)) (es : List (String × FSTree))
    (e : VcError) (h : updateFiles fs es = .error e) : e = .ioFailure := by
  induction fs generalizing es with
  | nil => simp [updateFiles] at h
  | cons hd tl ih =>
    obtain ⟨k, f⟩ := hd
    rcases hf : updateFileInto f es with ef | es'
    · rw [updateFiles, hf] at h
      cases h
      exact updateFileInto_error f es e hf
    · rw [updateFiles, hf] at h
      exact ih es' h

theorem update_error_io :
    ∀ (d : DirN) (dest : List (String × FSTree)) (e : VcError),
      updateDir d dest = .error e → e = .ioFailure := by
  refine updateDir.induct
    (fun d dest => ∀ e, updateDir d dest = .error e → e = .ioFailure)
    (fun ds es => ∀ e, updateDirs ds es = .error e → e = .ioFailure)
    ?_ ?_ ?_ ?_ ?_ ?_ ?_
  · intro dest n files dirs e hm e' h
    simp only [updateDir, hm] at h
    cases h
    rcases hl : lookupA dest n with _ | t
    · rw [hl] at hm; cases hm
    · cases t <;> rw [hl] at hm <;> cases hm
      rfl
  · intro dest n files dirs es0 hm e hfs e' h
    simp only [updateDir, hm, hfs] at h
    cases h
    exact updateFiles_error files es0 _ hfs
  · intro dest n files dirs es0 hm es1 hfs e hds ih e' h
    simp only [updateDir, hm, hfs, hds] at h
    cases h
    exact ih _ hds
  · intro dest n files dirs es0 hm es1 hfs es2 hds ih e h
    simp only [updateDir, hm, hfs, hds] at h
    cases h
  · intro es e h
    simp only [updateDirs] at h
    cases h
  · intro k d rest es e hd ih e' h
    simp only [updateDirs, hd] at h
    cases h
    exact ih _ hd
  · intro k d rest es es' hd ih ihrest e h
    simp only [updateDirs, hd] at h
    exact ihrest e h

theorem commit_error_io :
    ∀ (name : String) (prev : Option DirN) (entries : List (String × FSTree))
      (cnt : Nat) (e : VcError),
      commitDir name prev entries cnt = .error e → e = .ioFailure := by
  have main :
      ∀ (prev : Option DirN) (entries : List (String × FSTree))
        (files : List (String × FileN)) (dirs : List (String × DirN)) (cnt : Nat),
        ∀ e, commitEntries prev entries files dirs cnt = .error e → e = .ioFailure := by
    refine commitEntries.induct
      (fun name prev entries cnt => ∀ e, commitDir name prev entries cnt = .error e → e = .ioFailure)
      (fun prev entries files dirs cnt =>
        ∀ e, commitEntries prev entries files dirs cnt = .error e → e = .ioFailure)
      ?_ ?_ ?_ ?_ ?_ ?_ ?_
    · intro name prev entries cnt e hce ih e' h
      simp only [commitDir, hce] at h
      cases h
      exact ih _ hce
    · intro name prev entries cnt files dirs cnt' hce ih e h
      simp only [commitDir, hce] at h
      cases h
    · intro prev files dirs cnt e h
      simp only [commitEntries] at h
      cases h
    · intro prev files dirs cnt ename content mt rest fc ih e h
      simp only [commitEntries, if_pos] at h
      exact ih e h
    · intro prev files dirs cnt ename content mt rb rest hrb e h
      simp only [commitEntries, if_neg hrb] at h
      cases h
      rfl
    · intro prev files dirs cnt ename sub rest e hcd ih e' h
      simp only [commitEntries, hcd] at h
      cases h
      exact ih _ hcd
    · intro prev files dirs cnt ename sub rest d cnt' hcd ih ihrest e h
      simp only [commitEntries, hcd] at h
      exact ihrest e h
  intro name prev entries cnt e h
  rcases hce : commitEntries prev entries [] [] cnt with ef | ⟨files, dirs, cnt'⟩
  · simp only [commitDir, hce] at h
    cases h
    exact main prev entries [] [] cnt _ hce
  · simp only [commitDir, hce] at h
    cases h

/-! ### Shape of `Branch.commit` results -/

theorem branchCommit_rev_shape (b : BranchM) (fs : Option FSTree)
    (desc : Option String) (now : Nat) :
    (branchCommit b fs desc now).1.revisions = b.revisions ∨
    ∃ v : RevisionM, v.num = b.revisions.length ∧
      (branchCommit b fs desc now).1.revisions = b.revisions ++ [v] := by
  rcases fs with _ | t
  · left; rfl
  rcases t with ⟨c, mt, rb⟩ | es
  · left; rfl
  rcases hrc : revisionCommit b.revisions.length desc now b.revisions.getLast?
      (baseName b.path) es b.cnt with e | ⟨v, cnt'⟩
  · left
    simp only [branchCommit, hrc]
  by_cases hs : sameAsPrev v.root b.revisions.getLast? = true
  · left
    simp only [branchCommit, hrc, hs, if_pos]
  · right
    refine ⟨v, ?_, ?_⟩
    · unfold revisionCommit at hrc
      rcases hcd : commitDir (baseName b.path) (b.revisions.getLast?.map (·.root))
          es b.cnt with e | ⟨root, cnt''⟩
      · rw [hcd] at hrc; cases hrc
      · rw [hcd] at hrc; cases hrc; rfl
    · simp only [branchCommit, hrc, hs, if_neg, Bool.false_eq_true, not_false_iff]

/-- **C10.** `Branch.setPath` stores the new monitored path with its trailing
path separators stripped, and as a side effect renames the root directory
node of every existing revision to the new path's last component, leaving
each revision's sequence number, description, timestamp, file children and
directory children unchanged. -/
theorem setPath_strips_and_renames_roots (b : BranchM) (p : String) (i : Nat)
    (r : RevisionM) (h : b.revisions[i]? = some r) :
    (branchSetPath b p).path = normPath p ∧
    (branchSetPath b p).revisions.length = b.revisions.length ∧
    (branchSetPath b p).revisions[i]? =
      some { num := r.num, desc := r.desc, time := r.time,
             root := .mk (baseName (normPath p)) r.root.files r.root.dirs } := by
  refine ⟨rfl, by simp [branchSetPath], ?_⟩
  simp [branchSetPath, h]

/-- Witness: `setPath` applied to a one-revision branch at path `/d`,
repointing it to `/x/y/`. -/
theorem setPath_strips_and_renames_roots_witness :
    (branchSetPath ⟨"b", "/d", [⟨0, none, 0, .mk "d" [] []⟩], 0⟩ "/x/y/").path = normPath "/x/y/" ∧
    (branchSetPath ⟨"b", "/d", [⟨0, none, 0, .mk "d" [] []⟩], 0⟩ "/x/y/").revisions.length =
      (⟨"b", "/d", [⟨0, none, 0, .mk "d" [] []⟩], 0⟩ : BranchM).revisions.length ∧
    (branchSetPath ⟨"b", "/d", [⟨0, none, 0, .mk "d" [] []⟩], 0⟩ "/x/y/").revisions[0]? =
      some { num := 0, desc := none, time := 0,
             root := .mk (baseName (normPath "/x/y/")) (DirN.mk "d" [] []).files (DirN.mk "d" [] []).dirs } :=
  setPath_strips_and_renames_roots ⟨"b", "/d", [⟨0, none, 0, .mk "d" [] []⟩], 0⟩
    "/x/y/" 0 ⟨0, none, 0, .mk "d" [] []⟩ (by rfl)

/-- **C8.** `Branch.has_revision i` holds exactly when `i` lies in
`[-k, k-1]` for `k` revisions; `Branch.update i` raises `NoSuchRevision`
exactly when `i` is outside that range; and for an in-range negative `i`
the restored revision is the one at position `k + i`. -/
theorem revision_indexing (b : BranchM) (num : Int) (parent : List (String × FSTree)) :
    (hasRevision b num = true ↔
      -(b.revisions.length : Int) ≤ num ∧ num < (b.revisions.length : Int)) ∧
    (branchUpdate b num parent = .error (.noSuchRevision num) ↔
      ¬(-(b.revisions.length : Int) ≤ num ∧ num < (b.revisions.length : Int))) ∧
    (-(b.revisions.length : Int) ≤ num → num < 0 →
      ∃ r, b.revisions[(num + (b.revisions.length : Int)).toNat]? = some r ∧
        branchUpdate b num parent = revisionUpdate r parent) := by
  have hhr : hasRevision b num = true ↔
      -(b.revisions.length : Int) ≤ num ∧ num < (b.revisions.length : Int) := by
    simp [hasRevision]
  have hget : -(b.revisions.length : Int) ≤ num → num < (b.revisions.length : Int) →
      ∃ r, pyGet b.revisions num = some r ∧
        (num < 0 → b.revisions[(num + (b.revisions.length : Int)).toNat]? = some r) := by
    intro h1 h2
    by_cases hp : 0 ≤ num
    · have hlt : num.toNat < b.revisions.length := by omega
      refine ⟨b.revisions[num.toNat], ?_, ?_⟩
      · simp [pyGet, hp, List.getElem?_eq_getElem hlt]
      · intro hneg; omega
    · have hge : 0 ≤ num + (b.revisions.length : Int) := by omega
      have hlt : (num + (b.revisions.length : Int)).toNat < b.revisions.length := by omega
      refine ⟨b.revisions[(num + (b.revisions.length : Int)).toNat], ?_, ?_⟩
      · simp [pyGet, hp, hge, List.getElem?_eq_getElem hlt]
      · intro _; exact List.getElem?_eq_getElem hlt
  refine ⟨hhr, ?_, ?_⟩
  · by_cases hin : -(b.revisions.length : Int) ≤ num ∧ num < (b.revisions.length : Int)
    · obtain ⟨r, hr, _⟩ := hget hin.1 hin.2
      have hb : branchUpdate b num parent = revisionUpdate r parent := by
        simp only [branchUpdate, hhr.mpr hin, if_pos, hr]
      rw [hb]
      refine ⟨fun hcon => ?_, fun hn => absurd hin hn⟩
      simpa using update_error_io r.root parent _ hcon
    · have hfalse : hasRevision b num = false := by
        rcases hh : hasRevision b num with _ | _
        · rfl
        · exact absurd (hhr.mp hh) hin
      simp [branchUpdate, hfalse, hin]
  · intro h1 h2
    obtain ⟨r, hr, hidx⟩ := hget h1 (by omega)
    refine ⟨r, hidx h2, ?_⟩
    have hin : -(b.revisions.length : Int) ≤ num ∧ num < (b.revisions.length : Int) :=
      ⟨h1, by omega⟩
    simp only [branchUpdate, hhr.mpr hin, if_pos, hr]

/-- Witness: a two-revision branch, index `-1` restores the revision at
position `1`. -/
theorem revision_indexing_witness :
    (hasRevision ⟨"b", "/d", [⟨0, none, 0, .mk "d" [] []⟩, ⟨1, none, 0, .mk "d" [] []⟩], 0⟩ (-1) = true ↔
      -((⟨"b", "/d", [⟨0, none, 0, .mk "d" [] []⟩, ⟨1, none, 0, .mk "d" [] []⟩], 0⟩ : BranchM).revisions.length : Int) ≤ -1 ∧
      (-1 : Int) < ((⟨"b", "/d", [⟨0, none, 0, .mk "d" [] []⟩, ⟨1, none, 0, .mk "d" [] []⟩], 0⟩ : BranchM).revisions.length : Int)) ∧
    (branchUpdate ⟨"b", "/d", [⟨0, none, 0, .mk "d" [] []⟩, ⟨1, none, 0, .mk "d" [] []⟩], 0⟩ (-1) [] = .error (.noSuchRevision (-1)) ↔
      ¬(-((⟨"b", "/d", [⟨0, none, 0, .mk "d" [] []⟩, ⟨1, none, 0, .mk "d" [] []⟩], 0⟩ : BranchM).revisions.length : Int) ≤ -1 ∧
        (-1 : Int) < ((⟨"b", "/d", [⟨0, none, 0, .mk "d" [] []⟩, ⟨1, none, 0, .mk "d" [] []⟩], 0⟩ : BranchM).revisions.length : Int))) ∧
    (-((⟨"b", "/d", [⟨0, none, 0, .mk "d" [] []⟩, ⟨1, none, 0, .mk "d" [] []⟩], 0⟩ : BranchM).revisions.length : Int) ≤ -1 → (-1 : Int) < 0 →
      ∃ r, (⟨"b", "/d", [⟨0, none, 0, .mk "d" [] []⟩, ⟨1, none, 0, .mk "d" [] []⟩], 0⟩ : BranchM).revisions[((-1 : Int) + ((⟨"b", "/d", [⟨0, none, 0, .mk "d" [] []⟩, ⟨1, none, 0, .mk "d" [] []⟩], 0⟩ : BranchM).revisions.length : Int)).toNat]? = some r ∧
        branchUpdate ⟨"b", "/d", [⟨0, none, 0, .mk "d" [] []⟩, ⟨1, none, 0, .mk "d" [] []⟩], 0⟩ (-1) [] = revisionUpdate r []) :=
  revision_indexing ⟨"b", "/d", [⟨0, none, 0, .mk "d" [] []⟩, ⟨1, none, 0, .mk "d" [] []⟩], 0⟩ (-1) []

/-- **C7.** `Branch.commit` fails with `NotADirectory` exactly when the
monitored path is not currently a directory; whenever it terminates with any
error (an I/O failure during capture included) the revision sequence is
exactly as before the call; and a successful call appends exactly one
revision (result `true`) or none (result `false`). -/
theorem commit_not_a_directory_and_atomic (b : BranchM) (fs : Option FSTree)
    (desc : Option String) (now : Nat) :
    ((branchCommit b fs desc now).2 = .error (.notDirectory b.path) ↔
      isDirOpt fs = false) ∧
    (∀ e, (branchCommit b fs desc now).2 = .error e →
      (branchCommit b fs desc now).1.revisions = b.revisions) ∧
    ((branchCommit b fs desc now).2 = .ok false →
      (branchCommit b fs desc now).1.revisions = b.revisions) ∧
    ((branchCommit b fs desc now).2 = .ok true →
      ∃ v, (branchCommit b fs desc now).1.revisions = b.revisions ++ [v]) := by
  rcases fs with _ | t
  · exact ⟨by simp [branchCommit, isDirOpt], fun e _ => rfl, by simp [branchCommit], by simp [branchCommit]⟩
  rcases t with ⟨c, mt, rb⟩ | es
  · exact ⟨by simp [branchCommit, isDirOpt], fun e _ => rfl, by simp [branchCommit], by simp [branchCommit]⟩
  rcases hrc : revisionCommit b.revisions.length desc now b.revisions.getLast?
      (baseName b.path) es b.cnt with e | ⟨v, cnt'⟩
  · have he : e = .ioFailure := by
      unfold revisionCommit at hrc
      rcases hcd : commitDir (baseName b.path) (b.revisions.getLast?.map (·.root))
          es b.cnt with e' | ok
      · rw [hcd] at hrc; cases hrc
        exact commit_error_io _ _ _ _ _ hcd
      · rw [hcd] at hrc; cases hrc
    subst he
    refine ⟨?_, fun e h => ?_, ?_, ?_⟩
    · simp [branchCommit, hrc, isDirOpt]
    · simp only [branchCommit, hrc]
    · simp [branchCommit, hrc]
    · simp [branchCommit, hrc]
  · by_cases hs : sameAsPrev v.root b.revisions.getLast? = true
    · refine ⟨?_, fun e h => ?_, fun _ => ?_, ?_⟩
      · simp [branchCommit, hrc, hs, isDirOpt]
      · simp [branchCommit, hrc, hs] at h
      · simp [branchCommit, hrc, hs]
      · intro h
        simp [branchCommit, hrc, hs] at h
    · refine ⟨?_, fun e h => ?_, fun h => ?_, fun _ => ?_⟩
      · simp [branchCommit, hrc, hs, isDirOpt]
      · simp [branchCommit, hrc, hs] at h
      · simp [branchCommit, hrc, hs] at h
      · exact ⟨v, by simp [branchCommit, hrc, hs]⟩

/-- Witness: committing over a missing path errors with `NotADirectory` and
leaves the revisions untouched; an unreadable file aborts the commit with the
revisions untouched as well. -/
theorem commit_not_a_directory_and_atomic_witness :
    ((branchCommit ⟨"b", "/d", [], 0⟩ none none 0).2 =
      .error (.notDirectory (⟨"b", "/d", [], 0⟩ : BranchM).path) ↔ isDirOpt none = false) ∧
    (branchCommit ⟨"b", "/d", [], 0⟩ (some (.dir [("x", .file [1] 0 false)])) none 0).1.revisions =
      (⟨"b", "/d", [], 0⟩ : BranchM).revisions :=
  ⟨(commit_not_a_directory_and_atomic ⟨"b", "/d", [], 0⟩ none none 0).1,
   (commit_not_a_directory_and_atomic ⟨"b", "/d", [], 0⟩
      (some (.dir [("x", .file [1] 0 false)])) none 0).2.1 .ioFailure
      (by simp [branchCommit, revisionCommit, commitDir, commitEntries])⟩

/-- **C5.** On every branch reachable by the public operations, the `i`-th
revision carries sequence number `i`; hence consecutive revisions differ by
one in `num` and the first revision (the one without a predecessor) has
`num = 0`. -/
theorem seqnum_invariant (b : BranchM) (h : BranchReach b) :
    (∀ (i : Nat) (r : RevisionM), b.revisions[i]? = some r → r.num = i) ∧
    (∀ (i : Nat) (r r' : RevisionM), b.revisions[i]? = some r → b.revisions[i + 1]? = some r' →
      r'.num = r.num + 1) ∧
    (∀ r : RevisionM, b.revisions[0]? = some r → r.num = 0) := by
  have main : ∀ (i : Nat) (r : RevisionM), b.revisions[i]? = some r → r.num = i := by
    induction h with
    | init name path fs b hinit =>
      have hnil : b.revisions = [] := by
        unfold branchInit at hinit
        split at hinit
        · cases hinit; rfl
        · cases hinit
      intro i r hr
      rw [hnil] at hr
      simp at hr
    | commit b fs desc now hb ih =>
      rcases branchCommit_rev_shape b fs desc now with hsame | ⟨v, hv, happ⟩
      · rw [hsame]; exact ih
      · rw [happ]
        intro i r hr
        rw [List.getElem?_append] at hr
        by_cases hi : i < b.revisions.length
        · rw [if_pos hi] at hr
          exact ih i r hr
        · rw [if_neg hi] at hr
          rcases hj : i - b.revisions.length with _ | j
          · rw [hj] at hr
            simp at hr
            subst hr
            omega
          · rw [hj] at hr
            simp at hr
    | setPath b p hb ih =>
      intro i r hr
      simp only [branchSetPath, List.getElem?_map] at hr
      rcases ho : b.revisions[i]? with _ | r0
      · rw [ho] at hr; cases hr
      · rw [ho] at hr
        cases hr
        exact ih i r0 ho
  refine ⟨main, fun i r r' h1 h2 => ?_, fun r h0 => main 0 r h0⟩
  rw [main i r h1, main (i + 1) r' h2]

/-- Witness: the invariant on a freshly constructed branch. -/
theorem seqnum_invariant_witness :
    (∀ (i : Nat) (r : RevisionM), (⟨"b", "/d", [], 0⟩ : BranchM).revisions[i]? = some r → r.num = i) ∧
    (∀ (i : Nat) (r r' : RevisionM), (⟨"b", "/d", [], 0⟩ : BranchM).revisions[i]? = some r →
      (⟨"b", "/d", [], 0⟩ : BranchM).revisions[i + 1]? = some r' → r'.num = r.num + 1) ∧
    (∀ r : RevisionM, (⟨"b", "/d", [], 0⟩ : BranchM).revisions[0]? = some r → r.num = 0) :=
  seqnum_invariant ⟨"b", "/d", [], 0⟩
    (.init "b" "/d" (some (.dir [])) _ (by simp [branchInit, isDirOpt]; decide))

/-- **C6, counterexample.** The claim fails as stated: `Repository.remove_branch`
checks only that the branch exists, so removing the default branch itself is a
public operation that succeeds and leaves `defbranch` dangling.  The state
below is reached by `Repository('/d')` followed by `remove_branch('trunk')`,
and its default branch names no existing branch. -/
theorem default_branch_invariant_cex :
    RepoReach { defbranch := "trunk", branches := [], ver := modelVersion } ∧
    repoHasBranch { defbranch := "trunk", branches := [], ver := modelVersion }
      (RepositoryM.mk "trunk" [] modelVersion).defbranch = false := by
  constructor
  · refine RepoReach.remove
      { defbranch := "trunk",
        branches := [("trunk", { name := "trunk", path := "/d", revisions := [], cnt := 0 })],
        ver := modelVersion } "trunk" _
      (RepoReach.init "/d" none (some (.dir [])) _ ?_) ?_
    · simp [repoInit, branchInit, isDirOpt]
      decide
    · simp [repoRemoveBranch, repoHasBranch, lookupA, removeA]
  · simp [repoHasBranch, lookupA]

/-- **C6, amended.** Along every sequence of public operations in which
`remove_branch` is never applied to the current default branch (the discipline
the command layer enforces with its "you cannot delete the default branch"
guard), the designated default branch always names an existing branch. -/
theorem default_branch_invariant (r : RepositoryM) (h : RepoReachSafe r) :
    repoHasBranch r r.defbranch = true := by
  induction h with
  | init path db fs r hinit =>
    rcases db with _ | d
    · simp only [repoInit] at hinit
      rcases hb : branchInit "trunk" path fs with e | b
      · rw [hb] at hinit; cases hinit
      · rw [hb] at hinit
        cases hinit
        simp [repoHasBranch, lookupA]
    · simp only [repoInit] at hinit
      rcases hb : branchInit d path fs with e | b
      · rw [hb] at hinit; cases hinit
      · rw [hb] at hinit
        cases hinit
        simp [repoHasBranch, lookupA]
  | add r name path fs r' hr hadd ih =>
    unfold repoAddBranch at hadd
    by_cases hhas : repoHasBranch r name = true
    · rw [if_pos hhas] at hadd; cases hadd
    · rw [if_neg hhas] at hadd
      rcases hb : branchInit name path fs with e | b
      · rw [hb] at hadd; cases hadd
      · rw [hb] at hadd
        cases hadd
        simp only [repoHasBranch, lookupA_setA]
        by_cases hn : name = r.defbranch
        · simp [hn]
        · simp only [if_neg hn]
          exact ih
  | remove r name r' hr hne hrem ih =>
    unfold repoRemoveBranch at hrem
    by_cases hhas : repoHasBranch r name = true
    · rw [if_pos hhas] at hrem
      cases hrem
      simp only [repoHasBranch]
      rw [lookupA_removeA_ne r.branches name r.defbranch hne]
      exact ih
    · rw [if_neg hhas] at hrem; cases hrem
  | setDef r name r' hr hset ih =>
    unfold repoSetDefbranch at hset
    by_cases hhas : repoHasBranch r name = true
    · rw [if_pos hhas] at hset
      cases hset
      exact hhas
    · rw [if_neg hhas] at hset; cases hset
  | commit r desc bn fs now hr ih =>
    rcases bn with _ | bn
    · simp only [repoCommit]
      rcases hl : lookupA r.branches r.defbranch with _ | b
      · exact ih
      · simp only [repoHasBranch, lookupA_setA]
        by_cases hd : r.defbranch = r.defbranch
        · simp [hd]
        · exact absurd rfl hd
    · simp only [repoCommit]
      by_cases hhas : repoHasBranch r bn = true
      · rw [if_pos hhas]
        rcases hl : lookupA r.branches bn with _ | b
        · exact ih
        · simp only [repoHasBranch, lookupA_setA]
          by_cases hd : bn = r.defbranch
          · simp [hd]
          · simp only [if_neg hd]
            exact ih
      · rw [if_neg hhas]
        exact ih

/-- Witness: the amended invariant on a freshly created repository. -/
theorem default_branch_invariant_witness :
    repoHasBranch
      { defbranch := "trunk",
        branches := [("trunk", { name := "trunk", path := "/d", revisions := [], cnt := 0 })],
        ver := modelVersion }
      (RepositoryM.mk "trunk"
        [("trunk", { name := "trunk", path := "/d", revisions := [], cnt := 0 })]
        modelVersion).defbranch = true :=
  default_branch_invariant _
    (.init "/d" none (some (.dir [])) _ (by simp [repoInit, branchInit, isDirOpt]; decide))

/-! ### Dictionary well-formedness lemmas -/

theorem lookupA_isSome_of_mem {α : Type} (l : List (String × α)) (k : String) (v : α)
    (hm : (k, v) ∈ l) : (lookupA l k).isSome = true := by
  induction l with
  | nil => cases hm
  | cons hd tl ih =>
    obtain ⟨k0, v0⟩ := hd
    rcases List.mem_cons.mp hm with heq | hm'
    · cases heq; simp [lookupA]
    · by_cases h0 : k0 = k
      · simp [lookupA, h0]
      · simp only [lookupA, if_neg h0]
        exact ih hm'

theorem lookupA_of_mem {α : Type} (l : List (String × α)) (k : String) (v : α)
    (hnd : nodupKeys l = true) (hm : (k, v) ∈ l) : lookupA l k = some v := by
  induction l with
  | nil => cases hm
  | cons hd tl ih =>
    obtain ⟨k0, v0⟩ := hd
    simp only [nodupKeys, Bool.and_eq_true] at hnd
    rcases List.mem_cons.mp hm with heq | hm'
    · cases heq; simp [lookupA]
    · by_cases h0 : k0 = k
      · subst h0
        exfalso
        have hs := lookupA_isSome_of_mem tl k0 v hm'
        have hn := hnd.1
        rw [Option.isNone_iff_eq_none] at hn
        rw [hn] at hs
        cases hs
      · simp only [lookupA, if_neg h0]
        exact ih hnd.2 hm'

theorem nodupKeys_setA {α : Type} (l : List (String × α)) (k : String) (v : α)
    (h : nodupKeys l = true) : nodupKeys (setA l k v) = true := by
  induction l with
  | nil => simp [setA, nodupKeys, lookupA]
  | cons hd tl ih =>
    obtain ⟨k0, v0⟩ := hd
    simp only [nodupKeys, Bool.and_eq_true] at h
    by_cases h0 : k0 = k
    · subst h0
      simp only [setA, if_pos rfl, nodupKeys, Bool.and_eq_true]
      exact ⟨h.1, h.2⟩
    · simp only [setA, if_neg h0, nodupKeys, Bool.and_eq_true]
      refine ⟨?_, ih h.2⟩
      rw [lookupA_setA]
      rw [if_neg (fun hh => h0 hh.symm)]
      exact h.1

theorem allP_setA {α : Type} (P : String × α → Bool) (l : List (String × α))
    (k : String) (v : α) (hl : l.all P = true) (hv : P (k, v) = true) :
    (setA l k v).all P = true := by
  induction l with
  | nil => simp [setA, hv]
  | cons hd tl ih =>
    obtain ⟨k0, v0⟩ := hd
    simp only [List.all_cons, Bool.and_eq_true] at hl
    by_cases h0 : k0 = k
    · simp [setA, h0, hv, hl.2]
    · simp [setA, h0, hl.1, ih hl.2]

theorem wfKeysDirs_setA (l : List (String × DirN)) (k : String) (d : DirN)
    (hl : wfKeysDirs l = true) (hd : wfKeysDir d = true) :
    wfKeysDirs (setA l k d) = true := by
  induction l with
  | nil => simp [setA, wfKeysDirs, hd]
  | cons hd0 tl ih =>
    obtain ⟨k0, d0⟩ := hd0
    simp only [wfKeysDirs, Bool.and_eq_true] at hl
    by_cases h0 : k0 = k
    · simp only [setA, if_pos h0, wfKeysDirs, Bool.and_eq_true]
      exact ⟨hd, hl.2⟩
    · simp only [setA, if_neg h0, wfKeysDirs, Bool.and_eq_true]
      exact ⟨hl.1, ih hl.2⟩

/-! ### The observable part of a capture depends only on the filesystem -/

theorem stripFiles_setA (l : List (String × FileN)) (k : String) (f : FileN) :
    stripFiles (setA l k f) = setA (stripFiles l) k (stripFile f) := by
  induction l with
  | nil => rfl
  | cons hd tl ih =>
    obtain ⟨k0, f0⟩ := hd
    by_cases h0 : k0 = k
    · simp [stripFiles, setA, h0]
    · simp only [stripFiles] at ih
      simp only [stripFiles, setA, if_neg h0, List.map_cons, ih]

theorem stripDirs_setA (l : List (String × DirN)) (k : String) (d : DirN) :
    stripDirs (setA l k d) = setA (stripDirs l) k (stripDir d) := by
  induction l with
  | nil => simp [stripDirs, setA]
  | cons hd tl ih =>
    obtain ⟨k0, d0⟩ := hd
    by_cases h0 : k0 = k <;> simp [stripDirs, setA, h0, ih]

theorem stripDirs_length (l : List (String × DirN)) :
    (stripDirs l).length = l.length := by
  induction l with
  | nil => rfl
  | cons hd tl ih =>
    obtain ⟨k, d⟩ := hd
    simp [stripDirs, ih]

theorem stripFile_commitFile (name : String) (prevfile : Option FileN)
    (content : List Nat) (mt cnt : Nat) :
    stripFile (commitFile name prevfile content mt cnt).1 = ⟨name, ⟨0, content⟩, 0⟩ := by
  rcases prevfile with _ | pf
  · simp [commitFile, stripFile]
  · by_cases h : content = pf.data.bytes
    · simp [commitFile, h, stripFile]
    · simp [commitFile, h, stripFile]

theorem commitFile_name (name : String) (prevfile : Option FileN)
    (content : List Nat) (mt cnt : Nat) :
    (commitFile name prevfile content mt cnt).1.name = name := by
  rcases prevfile with _ | pf
  · simp [commitFile]
  · by_cases h : content = pf.data.bytes <;> simp [commitFile, h]

theorem commit_strip_shape :
    ∀ (name : String) (prev : Option DirN) (entries : List (String × FSTree)) (cnt : Nat),
      (commitDir name prev entries cnt).map (fun x => stripDir x.1) = shapeDir name entries := by
  have step : ∀ (name : String) (prev : Option DirN) (entries : List (String × FSTree)) (cnt : Nat),
      ((commitEntries prev entries [] [] cnt).map (fun x => (stripFiles x.1, stripDirs x.2.1))
        = shapeEntries entries [] []) →
      (commitDir name prev entries cnt).map (fun x => stripDir x.1) = shapeDir name entries := by
    intro name prev entries cnt ih
    rcases hce : commitEntries prev entries [] [] cnt with e | ⟨files, dirs, cnt'⟩
    · rw [hce] at ih
      have hsh : shapeEntries entries [] [] = .error e := by
        rw [← ih]; rfl
      simp only [commitDir, hce, shapeDir, hsh, Except.map]
    · rw [hce] at ih
      have hsh : shapeEntries entries [] [] = .ok (stripFiles files, stripDirs dirs) := by
        rw [← ih]; rfl
      simp only [commitDir, hce, shapeDir, hsh, Except.map, stripDir]
  have main : ∀ (prev : Option DirN) (entries : List (String × FSTree))
      (files : List (String × FileN)) (dirs : List (String × DirN)) (cnt : Nat),
      (commitEntries prev entries files dirs cnt).map (fun x => (stripFiles x.1, stripDirs x.2.1))
        = shapeEntries entries (stripFiles files) (stripDirs dirs) := by
    refine commitEntries.induct
      (fun name prev entries cnt =>
        (commitDir name prev entries cnt).map (fun x => stripDir x.1) = shapeDir name entries)
      (fun prev entries files dirs cnt =>
        (commitEntries prev entries files dirs cnt).map (fun x => (stripFiles x.1, stripDirs x.2.1))
          = shapeEntries entries (stripFiles files) (stripDirs dirs)) ?_ ?_ ?_ ?_ ?_ ?_ ?_
    · intro name prev entries cnt e hce ih
      refine step name prev entries cnt ?_
      simpa using ih
    · intro name prev entries cnt files dirs cnt' hce ih
      refine step name prev entries cnt ?_
      simpa using ih
    · intro prev files dirs cnt
      simp [commitEntries, shapeEntries, Except.map]
    · intro prev files dirs cnt ename content mt rest fc ih
      simp only [commitEntries, if_pos]
      simp only [shapeEntries, if_pos]
      rw [ih]
      rw [stripFiles_setA, stripFile_commitFile]
    · intro prev files dirs cnt ename content mt rb rest hrb
      simp only [commitEntries, if_neg hrb, shapeEntries]
      rfl
    · intro prev files dirs cnt ename sub rest e hcd ih
      have hsh : shapeDir ename sub = .error e := by
        rw [← ih, hcd]; rfl
      simp only [commitEntries, hcd, shapeEntries, hsh, Except.map]
    · intro prev files dirs cnt ename sub rest d cnt' hcd ih ihrest
      have hsh : shapeDir ename sub = .ok (stripDir d) := by
        rw [← ih, hcd]; rfl
      simp only [commitEntries, hcd, shapeEntries, hsh]
      rw [ihrest, stripDirs_setA]
  intro name prev entries cnt
  refine step name prev entries cnt ?_
  simpa using main prev entries [] [] cnt

/-! ### `Directory.__eq__` sees only the stripped tree, and is reflexive on
well-keyed trees -/

theorem eqFile_strip_congr (p1 p2 : String) (f f' g : FileN)
    (h : stripFile f = stripFile f') :
    eqFile p1 p2 f g = eqFile p1 p2 f' g := by
  simp only [stripFile, FileN.mk.injEq, CBuf.mk.injEq, true_and, and_true] at h
  obtain ⟨h1, h2⟩ := h
  simp only [eqFile, h1, h2]

theorem eqFiles_strip_congr (p1 p2 : String) (fs fs' other : List (String × FileN))
    (h : stripFiles fs = stripFiles fs') :
    eqFiles p1 p2 fs other = eqFiles p1 p2 fs' other := by
  induction fs generalizing fs' with
  | nil =>
    cases fs' with
    | nil => rfl
    | cons hd' tl' => simp [stripFiles] at h
  | cons hd tl ih =>
    cases fs' with
    | nil => simp [stripFiles] at h
    | cons hd' tl' =>
      obtain ⟨k, f⟩ := hd
      obtain ⟨k', f'⟩ := hd'
      simp only [stripFiles, List.map_cons, List.cons.injEq, Prod.mk.injEq] at h
      obtain ⟨⟨hk, hf⟩, htl⟩ := h
      have htl' : stripFiles tl = stripFiles tl' := htl
      simp only [eqFiles]
      rw [hk]
      rcases hlk : lookupA other k' with _ | g
      · simp only [hlk]
        rw [ih tl' htl']
      · simp only [hlk]
        rw [eqFile_strip_congr p1 p2 f f' g hf, ih tl' htl']

theorem eqDir_strip_congr :
    ∀ (c1 c2 : Option String) (dA dB : DirN), ∀ dC, stripDir dC = stripDir dA →
      eqDir c1 c2 dC dB = eqDir c1 c2 dA dB := by
  refine eqDir.induct
    (fun c1 c2 dA dB => ∀ dC, stripDir dC = stripDir dA →
      eqDir c1 c2 dC dB = eqDir c1 c2 dA dB)
    (fun p1 p2 ds other => ∀ ds', stripDirs ds' = stripDirs ds →
      eqDirs p1 p2 ds' other = eqDirs p1 p2 ds other)
    ?_ ?_ ?_
  · intro c1 c2 n1 fs1 ds1 n2 fs2 ds2 ih dC hstrip
    obtain ⟨nC, fsC, dsC⟩ := dC
    simp only [stripDir, DirN.mk.injEq] at hstrip
    obtain ⟨hn, hfs, hds⟩ := hstrip
    subst hn
    have hlenf : fsC.length = fs1.length := by
      have := congrArg List.length hfs
      simpa [stripFiles] using this
    have hlend : dsC.length = ds1.length := by
      have := congrArg List.length hds
      rw [stripDirs_length, stripDirs_length] at this
      exact this
    simp only [eqDir]
    rw [hlenf, hlend, eqFiles_strip_congr _ _ fsC fs1 fs2 hfs, ih dsC hds]
  · intro p1 p2 other ds' h
    cases ds' with
    | nil => rfl
    | cons hd' tl' =>
      obtain ⟨k', d'⟩ := hd'
      simp [stripDirs] at h
  · intro p1 p2 k d rest other ih1 ih2 ds' h
    cases ds' with
    | nil => simp [stripDirs] at h
    | cons hd' tl' =>
      obtain ⟨k', d'⟩ := hd'
      simp only [stripDirs, List.cons.injEq, Prod.mk.injEq] at h
      obtain ⟨⟨hk, hd⟩, htl⟩ := h
      simp only [eqDirs]
      rw [hk]
      rcases hlk : lookupA other k with _ | od
      · simp only [hlk]
        rw [ih2 tl' htl]
      · simp only [hlk]
        rw [ih1 od d' hd, ih2 tl' htl]

theorem eqFile_refl (p : String) (f : FileN) : eqFile p p f f = true := by
  simp [eqFile]

theorem eqFiles_refl (p : String) (l full : List (String × FileN))
    (hnd : nodupKeys full = true) (hsub : ∀ kf, kf ∈ l → kf ∈ full) :
    eqFiles p p l full = true := by
  induction l with
  | nil => rfl
  | cons hd tl ih =>
    obtain ⟨k, f⟩ := hd
    have hlk : lookupA full k = some f :=
      lookupA_of_mem full k f hnd (hsub (k, f) (List.mem_cons_self _ _))
    simp only [eqFiles, hlk, eqFile_refl, Bool.true_and]
    exact ih fun kf hm => hsub kf (List.mem_cons_of_mem _ hm)

theorem eqDir_refl :
    ∀ d : DirN, wfKeysDir d = true → ∀ c, eqDir c c d d = true := by
  refine wfKeysDir.induct
    (fun d => wfKeysDir d = true → ∀ c, eqDir c c d d = true)
    (fun ds => wfKeysDirs ds = true → ∀ (p : Option String) (full : List (String × DirN)),
      nodupKeys full = true → (∀ kd, kd ∈ ds → kd ∈ full) → eqDirs p p ds full = true)
    ?_ ?_ ?_
  · intro n files dirs ih hwf c
    simp only [wfKeysDir, Bool.and_eq_true] at hwf
    obtain ⟨⟨⟨⟨hndf, hndd⟩, _⟩, _⟩, hrec⟩ := hwf
    simp only [eqDir]
    rw [eqFiles_refl _ files files hndf (fun kf h => h)]
    rw [ih hrec _ dirs hndd (fun kd h => h)]
    simp
  · intro _ _ _ _ _
    rfl
  · intro k d rest ih1 ih2 hwf p full hndfull hsub
    simp only [wfKeysDirs, Bool.and_eq_true] at hwf
    have hlk : lookupA full k = some d :=
      lookupA_of_mem full k d hndfull (hsub (k, d) (List.mem_cons_self _ _))
    simp only [eqDirs, hlk]
    rw [ih1 hwf.1 p]
    rw [ih2 hwf.2 p full hndfull (fun kd hm => hsub kd (List.mem_cons_of_mem _ hm))]
    rfl

/-- The accumulator invariant of the `Directory.commit` loop: both dicts are
well-keyed and every directory child is recursively well-keyed. -/
def commitAccWf (name : String) (files : List (String × FileN))
    (dirs : List (String × DirN)) : Prop :=
  nodupKeys files = true ∧ files.all (fun kf => kf.1 == kf.2.name) = true ∧
  nodupKeys dirs = true ∧ dirs.all (fun kd => kd.1 == kd.2.name) = true ∧
  wfKeysDirs dirs = true ∧ name = name

theorem commitDir_ok_shape (name : String) (prev : Option DirN)
    (entries : List (String × FSTree)) (cnt : Nat) (d : DirN) (cnt' : Nat)
    (h : commitDir name prev entries cnt = .ok (d, cnt')) :
    ∃ files dirs, d = .mk name files dirs ∧
      commitEntries prev entries [] [] cnt = .ok (files, dirs, cnt') := by
  rcases hce : commitEntries prev entries [] [] cnt with e | ⟨files, dirs, c⟩
  · simp only [commitDir, hce] at h
    cases h
  · simp only [commitDir, hce] at h
    cases h
    exact ⟨files, dirs, rfl, rfl⟩

theorem commit_wfKeys :
    ∀ (name : String) (prev : Option DirN) (entries : List (String × FSTree))
      (cnt : Nat) (d : DirN) (cnt' : Nat),
      commitDir name prev entries cnt = .ok (d, cnt') → wfKeysDir d = true := by
  have main : ∀ (prev : Option DirN) (entries : List (String × FSTree))
      (files : List (String × FileN)) (dirs : List (String × DirN)) (cnt : Nat),
      (nodupKeys files = true ∧ files.all (fun kf => kf.1 == kf.2.name) = true ∧
       nodupKeys dirs = true ∧ dirs.all (fun kd => kd.1 == kd.2.name) = true ∧
       wfKeysDirs dirs = true) →
      ∀ F D c', commitEntries prev entries files dirs cnt = .ok (F, D, c') →
        nodupKeys F = true ∧ F.all (fun kf => kf.1 == kf.2.name) = true ∧
        nodupKeys D = true ∧ D.all (fun kd => kd.1 == kd.2.name) = true ∧
        wfKeysDirs D = true := by
    refine commitEntries.induct
      (fun name prev entries cnt => ∀ d c',
        commitDir name prev entries cnt = .ok (d, c') → wfKeysDir d = true)
      (fun prev entries files dirs cnt =>
        (nodupKeys files = true ∧ files.all (fun kf => kf.1 == kf.2.name) = true ∧
         nodupKeys dirs = true ∧ dirs.all (fun kd => kd.1 == kd.2.name) = true ∧
         wfKeysDirs dirs = true) →
        ∀ F D c', commitEntries prev entries files dirs cnt = .ok (F, D, c') →
          nodupKeys F = true ∧ F.all (fun kf => kf.1 == kf.2.name) = true ∧
          nodupKeys D = true ∧ D.all (fun kd => kd.1 == kd.2.name) = true ∧
          wfKeysDirs D = true)
      ?_ ?_ ?_ ?_ ?_ ?_ ?_
    · intro name prev entries cnt e hce ih d c' h
      simp only [commitDir, hce] at h
      cases h
    · intro name prev entries cnt files dirs cnt' hce ih d c' h
      simp only [commitDir, hce] at h
      cases h
      have hacc := ih (by simp [nodupKeys, wfKeysDirs]) files dirs cnt' hce
      obtain ⟨h1, h2, h3, h4, h5⟩ := hacc
      simp only [wfKeysDir, Bool.and_eq_true]
      exact ⟨⟨⟨⟨h1, h3⟩, h2⟩, h4⟩, h5⟩
    · intro prev files dirs cnt hacc F D c' h
      simp only [commitEntries] at h
      cases h
      exact hacc
    · intro prev files dirs cnt ename content mt rest fc ih hacc F D c' h
      simp only [commitEntries, if_pos] at h
      obtain ⟨h1, h2, h3, h4, h5⟩ := hacc
      refine ih ⟨nodupKeys_setA files ename fc.1 h1, ?_, h3, h4, h5⟩ F D c' h
      refine allP_setA _ files ename fc.1 h2 ?_
      have hn : fc.1.name = ename :=
        commitFile_name ename (prevFileOf prev ename) content mt cnt
      simp [hn]
    · intro prev files dirs cnt ename content mt rb rest hrb hacc F D c' h
      simp only [commitEntries, if_neg hrb] at h
      cases h
    · intro prev files dirs cnt ename sub rest e hcd ih hacc F D c' h
      simp only [commitEntries, hcd] at h
      cases h
    · intro prev files dirs cnt ename sub rest d cnt' hcd ih ihrest hacc F D c' h
      simp only [commitEntries, hcd] at h
      obtain ⟨h1, h2, h3, h4, h5⟩ := hacc
      have hdwf : wfKeysDir d = true := ih d cnt' hcd
      have hdname : d.name = ename := by
        obtain ⟨fs0, ds0, hshape, _⟩ := commitDir_ok_shape ename (prevDirOf prev ename) sub cnt d cnt' hcd
        rw [hshape]
        rfl
      refine ihrest ⟨h1, h2, nodupKeys_setA dirs ename d h3, ?_, wfKeysDirs_setA dirs ename d h5 hdwf⟩ F D c' h
      refine allP_setA _ dirs ename d h4 ?_
      simp only [hdname]
      simp
  intro name prev entries cnt d cnt' h
  obtain ⟨files, dirs, hshape, hce⟩ := commitDir_ok_shape name prev entries cnt d cnt' h
  have hacc := main prev entries [] [] cnt (by simp [nodupKeys, wfKeysDirs]) files dirs cnt' hce
  obtain ⟨h1, h2, h3, h4, h5⟩ := hacc
  rw [hshape]
  simp only [wfKeysDir, Bool.and_eq_true]
  exact ⟨⟨⟨⟨h1, h3⟩, h2⟩, h4⟩, h5⟩

/-- A capture that succeeded still succeeds against any other predecessor and
counter, with the same observable tree. -/
theorem commitDir_ok_of_ok (n : String) (p p' : Option DirN)
    (es : List (String × FSTree)) (c c' : Nat) (d : DirN) (cnt' : Nat)
    (h : commitDir n p es c = .ok (d, cnt')) :
    ∃ d2 cnt2, commitDir n p' es c' = .ok (d2, cnt2) ∧ stripDir d2 = stripDir d := by
  have h1 := commit_strip_shape n p es c
  have h2 := commit_strip_shape n p' es c'
  rw [h] at h1
  rw [← h1] at h2
  rcases hcd : commitDir n p' es c' with e | ⟨d2, c2⟩
  · rw [hcd] at h2
    simp [Except.map] at h2
  · rw [hcd] at h2
    simp only [Except.map, Except.ok.injEq] at h2
    exact ⟨d2, c2, rfl, h2⟩

/-- **C1, counterexample.**  The claim fails as stated: on a branch whose
latest revision already captures the (unchanged) filesystem, committing twice
in a row appends zero revisions, not exactly one.  The branch below is a fresh
branch over `/d` (an empty directory) after one commit; two further commits
with the filesystem unchanged leave its single revision alone. -/
theorem idempotent_commit_cex :
    (branchCommit
      (branchCommit
        (branchCommit ⟨"b", "/d", [], 0⟩ (some (.dir [])) none 0).1
        (some (.dir [])) none 1).1
      (some (.dir [])) none 2).1.revisions.length =
      (branchCommit ⟨"b", "/d", [], 0⟩ (some (.dir [])) none 0).1.revisions.length ∧
    (branchCommit ⟨"b", "/d", [], 0⟩ (some (.dir [])) none 0).1.revisions.length ≠
      (branchCommit ⟨"b", "/d", [], 0⟩ (some (.dir [])) none 0).1.revisions.length + 1 := by
  constructor
  · simp [branchCommit, revisionCommit, commitDir, commitEntries, sameAsPrev,
      baseName, baseNameAux, eqDir, eqDirs, eqFiles, dpath]
  · simp

/-- **C1, amended.**  If a first `Branch.commit` succeeds and the filesystem
does not change before a second `Branch.commit`, the second call returns
`false` ("nothing changed") and leaves the revision sequence unchanged; hence
the pair of calls appends at most one revision (exactly one precisely when
the first call returned `true`). -/
theorem idempotent_commit (b : BranchM) (fs : Option FSTree)
    (d1 d2 : Option String) (t1 t2 : Nat) (b1 : BranchM) (r1 : Bool)
    (h : branchCommit b fs d1 t1 = (b1, .ok r1)) :
    (branchCommit b1 fs d2 t2).2 = .ok false ∧
    (branchCommit b1 fs d2 t2).1.revisions = b1.revisions ∧
    b1.revisions.length ≤ b.revisions.length + 1 := by
  rcases fs with _ | t
  · simp [branchCommit] at h
  rcases t with ⟨c0, mt0, rb0⟩ | es
  · simp [branchCommit] at h
  rcases hrc : revisionCommit b.revisions.length d1 t1 b.revisions.getLast?
      (baseName b.path) es b.cnt with e | ⟨v, cnt'⟩
  · simp only [branchCommit, hrc] at h
    cases h
  have hcd1 : commitDir (baseName b.path) (b.revisions.getLast?.map (·.root)) es b.cnt
      = .ok (v.root, cnt') := by
    unfold revisionCommit at hrc
    rcases hx : commitDir (baseName b.path) (b.revisions.getLast?.map (·.root)) es b.cnt
      with e | ⟨root, cx⟩
    · rw [hx] at hrc; cases hrc
    · rw [hx] at hrc; cases hrc; exact hx
  by_cases hs : sameAsPrev v.root b.revisions.getLast? = true
  · simp only [branchCommit, hrc, hs, if_pos] at h
    obtain ⟨hb1, hr1⟩ := Prod.mk.injEq .. ▸ h
    have hb1rev : b1.revisions = b.revisions := by rw [← hb1]
    have hb1path : b1.path = b.path := by rw [← hb1]
    have hb1cnt : b1.cnt = cnt' := by rw [← hb1]
    obtain ⟨d2n, cnt2, hcd2, hstrip⟩ :=
      commitDir_ok_of_ok (baseName b.path) (b.revisions.getLast?.map (·.root))
        (b1.revisions.getLast?.map (·.root)) es b.cnt b1.cnt v.root cnt' hcd1
    have hrc2 : revisionCommit b1.revisions.length d2 t2 b1.revisions.getLast?
        (baseName b1.path) es b1.cnt = .ok (⟨b1.revisions.length, d2, t2, d2n⟩, cnt2) := by
      rw [hb1path]
      unfold revisionCommit
      rw [hb1rev, ← hb1rev, hcd2]
    have hsame2 : sameAsPrev d2n b1.revisions.getLast? = true := by
      rcases hlast : b.revisions.getLast? with _ | pl
      · rw [hlast] at hs
        simp [sameAsPrev] at hs
      · rw [hb1rev, hlast]
        rw [hlast] at hs
        simp only [sameAsPrev] at hs ⊢
        rw [eqDir_strip_congr none none v.root pl.root d2n hstrip]
        exact hs
    refine ⟨?_, ?_, ?_⟩
    · simp only [branchCommit, hrc2, hsame2, if_pos]
    · simp only [branchCommit, hrc2, hsame2, if_pos]
    · rw [hb1rev]; omega
  · simp only [branchCommit, hrc, hs, if_neg, Bool.false_eq_true, not_false_iff] at h
    obtain ⟨hb1, hr1⟩ := Prod.mk.injEq .. ▸ h
    have hb1rev : b1.revisions = b.revisions ++ [v] := by rw [← hb1]
    have hb1path : b1.path = b.path := by rw [← hb1]
    have hb1cnt : b1.cnt = cnt' := by rw [← hb1]
    have hlast2 : b1.revisions.getLast? = some v := by
      rw [hb1rev]
      exact List.getLast?_concat _
    obtain ⟨d2n, cnt2, hcd2, hstrip⟩ :=
      commitDir_ok_of_ok (baseName b.path) (b.revisions.getLast?.map (·.root))
        (b1.revisions.getLast?.map (·.root)) es b.cnt b1.cnt v.root cnt' hcd1
    have hrc2 : revisionCommit b1.revisions.length d2 t2 b1.revisions.getLast?
        (baseName b1.path) es b1.cnt = .ok (⟨b1.revisions.length, d2, t2, d2n⟩, cnt2) := by
      rw [hb1path]
      unfold revisionCommit
      rw [hcd2]
    have hsame2 : sameAsPrev d2n b1.revisions.getLast? = true := by
      rw [hlast2]
      simp only [sameAsPrev]
      rw [eqDir_strip_congr none none v.root v.root d2n hstrip]
      exact eqDir_refl v.root
        (commit_wfKeys (baseName b.path) (b.revisions.getLast?.map (·.root)) es b.cnt
          v.root cnt' hcd1) none
    refine ⟨?_, ?_, ?_⟩
    · simp only [branchCommit, hrc2, hsame2, if_pos]
    · simp only [branchCommit, hrc2, hsame2, if_pos]
    · rw [hb1rev]
      simp

/-- Witness: a fresh branch over an empty `/d`, first commit appends revision
0 and returns `true`; the second commit on the unchanged filesystem returns
`false` and changes nothing. -/
theorem idempotent_commit_witness :
    (branchCommit ⟨"b", "/d", [⟨0, none, 0, .mk "d" [] []⟩], 0⟩ (some (.dir [])) none 1).2 = .ok false ∧
    (branchCommit ⟨"b", "/d", [⟨0, none, 0, .mk "d" [] []⟩], 0⟩ (some (.dir [])) none 1).1.revisions =
      (⟨"b", "/d", [⟨0, none, 0, .mk "d" [] []⟩], 0⟩ : BranchM).revisions ∧
    (⟨"b", "/d", [⟨0, none, 0, .mk "d" [] []⟩], 0⟩ : BranchM).revisions.length ≤
      (⟨"b", "/d", [], 0⟩ : BranchM).revisions.length + 1 :=
  idempotent_commit ⟨"b", "/d", [], 0⟩ (some (.dir [])) none none 0 1
    ⟨"b", "/d", [⟨0, none, 0, .mk "d" [] []⟩], 0⟩ true
    (by simp [branchCommit, revisionCommit, commitDir, commitEntries, sameAsPrev,
      baseName, baseNameAux])

/-! ### Structural sharing of unchanged file buffers (C3 machinery) -/

theorem lookupA_mem {α : Type} (l : List (String × α)) (k : String) (v : α)
    (h : lookupA l k = some v) : (k, v) ∈ l := by
  induction l with
  | nil => simp [lookupA] at h
  | cons hd tl ih =>
    obtain ⟨k0, v0⟩ := hd
    by_cases h0 : k0 = k
    · subst h0
      simp only [lookupA, if_pos] at h
      cases h
      exact List.mem_cons_self _ _
    · simp only [lookupA, if_neg h0] at h
      exact List.mem_cons_of_mem _ (ih h)

theorem wfFSList_mem (es : List (String × FSTree)) (k : String) (t : FSTree)
    (h : wfFSList es = true) (hm : (k, t) ∈ es) : wfFS t = true := by
  induction es with
  | nil => cases hm
  | cons hd tl ih =>
    obtain ⟨k0, t0⟩ := hd
    simp only [wfFSList, Bool.and_eq_true] at h
    rcases List.mem_cons.mp hm with heq | hm'
    · cases heq; exact h.1
    · exact ih h.2 hm'

theorem commitEntries_files_frame (prev : Option DirN) (n : String) :
    ∀ (es : List (String × FSTree)) (files : List (String × FileN))
      (dirs : List (String × DirN)) (cnt : Nat) F D c',
      commitEntries prev es files dirs cnt = .ok (F, D, c') →
      lookupA es n = none → lookupA F n = lookupA files n := by
  intro es
  induction es with
  | nil =>
    intro files dirs cnt F D c' h hn
    simp only [commitEntries, Except.ok.injEq, Prod.mk.injEq] at h
    obtain ⟨h1, h2, h3⟩ := h
    rw [← h1]
  | cons hd tl ih =>
    intro files dirs cnt F D c' h hn
    obtain ⟨k, t⟩ := hd
    have hk : ¬ k = n := by
      intro hkn
      simp only [lookupA, if_pos hkn] at hn
      cases hn
    simp only [lookupA, if_neg hk] at hn
    rcases t with ⟨content, mt, rb⟩ | sub
    · rcases rb with _ | _
      · simp only [commitEntries, Bool.false_eq_true, if_neg] at h
        cases h
      · simp only [commitEntries, if_pos] at h
        have := ih _ _ _ F D c' h hn
        rw [this, lookupA_setA]
        rw [if_neg hk]
    · rcases hcd : commitDir k (prevDirOf prev k) sub cnt with e | ⟨d0, c0⟩
      · simp only [commitEntries, hcd] at h
        cases h
      · simp only [commitEntries, hcd] at h
        exact ih _ _ _ F D c' h hn

theorem commitEntries_dirs_frame (prev : Option DirN) (m : String) :
    ∀ (es : List (String × FSTree)) (files : List (String × FileN))
      (dirs : List (String × DirN)) (cnt : Nat) F D c',
      commitEntries prev es files dirs cnt = .ok (F, D, c') →
      lookupA es m = none → lookupA D m = lookupA dirs m := by
  intro es
  induction es with
  | nil =>
    intro files dirs cnt F D c' h hn
    simp only [commitEntries, Except.ok.injEq, Prod.mk.injEq] at h
    obtain ⟨h1, h2, h3⟩ := h
    rw [← h2]
  | cons hd tl ih =>
    intro files dirs cnt F D c' h hn
    obtain ⟨k, t⟩ := hd
    have hk : ¬ k = m := by
      intro hkn
      simp only [lookupA, if_pos hkn] at hn
      cases hn
    simp only [lookupA, if_neg hk] at hn
    rcases t with ⟨content, mt, rb⟩ | sub
    · rcases rb with _ | _
      · simp only [commitEntries, Bool.false_eq_true, if_neg] at h
        cases h
      · simp only [commitEntries, if_pos] at h
        exact ih _ _ _ F D c' h hn
    · rcases hcd : commitDir k (prevDirOf prev k) sub cnt with e | ⟨d0, c0⟩
      · simp only [commitEntries, hcd] at h
        cases h
      · simp only [commitEntries, hcd] at h
        have := ih _ _ _ F D c' h hn
        rw [this, lookupA_setA]
        rw [if_neg hk]

theorem commitEntries_file_shared (prev : Option DirN) (n : String) (pf : FileN)
    (mt : Nat) (hpf : prevFileOf prev n = some pf) :
    ∀ (es : List (String × FSTree)) (files : List (String × FileN))
      (dirs : List (String × DirN)) (cnt : Nat) F D c',
      nodupKeys es = true →
      lookupA es n = some (.file pf.data.bytes mt true) →
      commitEntries prev es files dirs cnt = .ok (F, D, c') →
      lookupA F n = some ⟨n, pf.data, mt⟩ := by
  intro es
  induction es with
  | nil =>
    intro files dirs cnt F D c' hnd hl h
    simp [lookupA] at hl
  | cons hd tl ih =>
    intro files dirs cnt F D c' hnd hl h
    obtain ⟨k, t⟩ := hd
    simp only [nodupKeys, Bool.and_eq_true] at hnd
    by_cases hk : k = n
    · subst hk
      simp only [lookupA, if_pos] at hl
      cases hl
      simp only [commitEntries, if_pos] at h
      have hfc : commitFile k (prevFileOf prev k) pf.data.bytes mt cnt
          = (⟨k, pf.data, mt⟩, cnt) := by
        rw [hpf]
        simp [commitFile]
      rw [hfc] at h
      have hrest : lookupA tl k = none := by
        have := hnd.1
        rw [Option.isNone_iff_eq_none] at this
        exact this
      have := commitEntries_files_frame prev k tl _ _ _ F D c' h hrest
      rw [this, lookupA_setA]
      rw [if_pos rfl]
    · simp only [lookupA, if_neg hk] at hl
      rcases t with ⟨content, mtx, rb⟩ | sub
      · rcases rb with _ | _
        · simp only [commitEntries, Bool.false_eq_true, if_neg] at h
          cases h
        · simp only [commitEntries, if_pos] at h
          exact ih _ _ _ F D c' hnd.2 hl h
      · rcases hcd : commitDir k (prevDirOf prev k) sub cnt with e | ⟨d0, c0⟩
        · simp only [commitEntries, hcd] at h
          cases h
        · simp only [commitEntries, hcd] at h
          exact ih _ _ _ F D c' hnd.2 hl h

theorem commitEntries_dir_child (prev : Option DirN) (m : String)
    (sub : List (String × FSTree)) :
    ∀ (es : List (String × FSTree)) (files : List (String × FileN))
      (dirs : List (String × DirN)) (cnt : Nat) F D c',
      nodupKeys es = true →
      lookupA es m = some (.dir sub) →
      commitEntries prev es files dirs cnt = .ok (F, D, c') →
      ∃ cntX dsub c2, commitDir m (prevDirOf prev m) sub cntX = .ok (dsub, c2) ∧
        lookupA D m = some dsub := by
  intro es
  induction es with
  | nil =>
    intro files dirs cnt F D c' hnd hl h
    simp [lookupA] at hl
  | cons hd tl ih =>
    intro files dirs cnt F D c' hnd hl h
    obtain ⟨k, t⟩ := hd
    simp only [nodupKeys, Bool.and_eq_true] at hnd
    by_cases hk : k = m
    · subst hk
      simp only [lookupA, if_pos] at hl
      cases hl
      rcases hcd : commitDir k (prevDirOf prev k) sub cnt with e | ⟨d0, c0⟩
      · simp only [commitEntries, hcd] at h
        cases h
      · simp only [commitEntries, hcd] at h
        have hrest : lookupA tl k = none := by
          have := hnd.1
          rw [Option.isNone_iff_eq_none] at this
          exact this
        have := commitEntries_dirs_frame prev k tl _ _ _ F D c' h hrest
        refine ⟨cnt, d0, c0, hcd, ?_⟩
        rw [this, lookupA_setA]
        rw [if_pos rfl]
    · simp only [lookupA, if_neg hk] at hl
      rcases t with ⟨content, mtx, rb⟩ | sub2
      · rcases rb with _ | _
        · simp only [commitEntries, Bool.false_eq_true, if_neg] at h
          cases h
        · simp only [commitEntries, if_pos] at h
          exact ih _ _ _ F D c' hnd.2 hl h
      · rcases hcd : commitDir k (prevDirOf prev k) sub2 cnt with e | ⟨d0, c0⟩
        · simp only [commitEntries, hcd] at h
          cases h
        · simp only [commitEntries, hcd] at h
          exact ih _ _ _ F D c' hnd.2 hl h

/-- Descending the capture of a well-keyed filesystem: a file whose on-disk
bytes equal its predecessor's decompressed bytes is stored as the very same
buffer (`CBuf` value, `bufId` included) in the new tree. -/
theorem commit_shares_buffer :
    ∀ (p : List String) (name : String) (pd : DirN) (es : List (String × FSTree))
      (cnt : Nat) (d : DirN) (cnt' : Nat) (n : String) (pf : FileN) (mt : Nat),
      wfFS (.dir es) = true →
      commitDir name (some pd) es cnt = .ok (d, cnt') →
      fileAt pd p n = some pf →
      fsAt es (p ++ [n]) = some (.file pf.data.bytes mt true) →
      fileAt d p n = some ⟨n, pf.data, mt⟩ := by
  intro p
  induction p with
  | nil =>
    intro name pd es cnt d cnt' n pf mt hwf hcd hfile hdisk
    simp only [wfFS, Bool.and_eq_true] at hwf
    simp only [fileAt] at hfile ⊢
    have hdisk' : lookupA es n = some (.file pf.data.bytes mt true) := by
      simp only [List.nil_append, fsAt] at hdisk
      rcases hl : lookupA es n with _ | t
      · rw [hl] at hdisk; cases hdisk
      · rw [hl] at hdisk
        simp at hdisk
        rw [hdisk]
    obtain ⟨files, dirs, hshape, hce⟩ := commitDir_ok_shape name (some pd) es cnt d cnt' hcd
    have hpf : prevFileOf (some pd) n = some pf := by
      simp only [prevFileOf]
      exact hfile
    have := commitEntries_file_shared (some pd) n pf mt hpf es [] [] cnt files dirs cnt'
      hwf.1 hdisk' hce
    rw [hshape]
    exact this
  | cons m rest ih =>
    intro name pd es cnt d cnt' n pf mt hwf hcd hfile hdisk
    simp only [wfFS, Bool.and_eq_true] at hwf
    simp only [fileAt] at hfile ⊢
    rcases hpd : lookupA pd.dirs m with _ | psub
    · rw [hpd] at hfile; cases hfile
    rw [hpd] at hfile
    have hdisk' : ∃ sub, lookupA es m = some (.dir sub) ∧
        fsAt sub (rest ++ [n]) = some (.file pf.data.bytes mt true) := by
      simp only [List.cons_append] at hdisk
      rcases hre : rest ++ [n] with _ | ⟨x, xs⟩
      · exact absurd hre (by simp)
      · rw [hre] at hdisk
        simp only [fsAt] at hdisk
        rcases hl : lookupA es m with _ | t
        · rw [hl] at hdisk
          cases hdisk
        · rw [hl] at hdisk
          rcases t with ⟨c0, m0, r0⟩ | sub
          · simp at hdisk
          · refine ⟨sub, rfl, ?_⟩
            simpa [fsAt] using hdisk
    obtain ⟨sub, hlm, hsub⟩ := hdisk'
    obtain ⟨files, dirs, hshape, hce⟩ := commitDir_ok_shape name (some pd) es cnt d cnt' hcd
    obtain ⟨cntX, dsub, c2, hcdsub, hD⟩ :=
      commitEntries_dir_child (some pd) m sub es [] [] cnt files dirs cnt' hwf.1 hlm hce
    have hprev : prevDirOf (some pd) m = some psub := by
      simp only [prevDirOf]
      exact hpd
    rw [hprev] at hcdsub
    have hsubwf : wfFS (.dir sub) = true :=
      wfFSList_mem es m (.dir sub) hwf.2 (lookupA_mem es m _ hlm)
    have hrec := ih m psub sub cntX dsub c2 n pf mt hsubwf hcdsub hfile hsub
    rw [hshape]
    simp only [DirN.dirs, hD]
    exact hrec

/-- **C3.** Structural sharing: if revision N (the branch's last revision)
holds file `n` at directory path `p` with stored buffer `pf.data`, the
on-disk bytes of that file equal the buffer's decompressed bytes, and a
commit appends revision N+1, then the node for that file in revision N+1
holds the very same buffer value — `bufId` included, i.e. the same Python
buffer object, not merely equal bytes — and `File.commit` performs no fresh
compression for it (the allocation counter is returned unchanged). -/
theorem structural_sharing (b : BranchM) (es : List (String × FSTree))
    (desc : Option String) (now : Nat) (rN : RevisionM) (p : List String)
    (n : String) (pf : FileN) (mt : Nat) (b' : BranchM)
    (hlast : b.revisions.getLast? = some rN)
    (hwf : wfFS (.dir es) = true)
    (hfile : fileAt rN.root p n = some pf)
    (hdisk : fsAt es (p ++ [n]) = some (.file pf.data.bytes mt true))
    (hcommit : branchCommit b (some (.dir es)) desc now = (b', .ok true)) :
    (∃ rN1, b'.revisions.getLast? = some rN1 ∧
      fileAt rN1.root p n = some ⟨n, pf.data, mt⟩) ∧
    (∀ c : Nat, commitFile n (some pf) pf.data.bytes mt c = (⟨n, pf.data, mt⟩, c)) := by
  constructor
  · rcases hrc : revisionCommit b.revisions.length desc now b.revisions.getLast?
        (baseName b.path) es b.cnt with e | ⟨v, cnt'⟩
    · simp only [branchCommit, hrc] at hcommit
      cases hcommit
    have hcd1 : commitDir (baseName b.path) (some rN.root) es b.cnt
        = .ok (v.root, cnt') := by
      unfold revisionCommit at hrc
      rw [hlast] at hrc
      simp only [Option.map_some'] at hrc
      rcases hx : commitDir (baseName b.path) (some rN.root) es b.cnt
        with e | ⟨root, cx⟩
      · rw [hx] at hrc; cases hrc
      · rw [hx] at hrc; cases hrc; rfl
    by_cases hs : sameAsPrev v.root b.revisions.getLast? = true
    · simp only [branchCommit, hrc, hs, if_pos] at hcommit
      obtain ⟨_, hr⟩ := Prod.mk.injEq .. ▸ hcommit
      cases hr
    · simp only [branchCommit, hrc, hs, if_neg, Bool.false_eq_true, not_false_iff] at hcommit
      obtain ⟨hb', _⟩ := Prod.mk.injEq .. ▸ hcommit
      refine ⟨v, ?_, ?_⟩
      · rw [← hb']
        exact List.getLast?_concat _
      · exact commit_shares_buffer p (baseName b.path) rN.root es b.cnt v.root cnt'
          n pf mt hwf hcd1 hfile hdisk
  · intro c
    simp [commitFile]

/-- Witness: a branch whose revision 0 stores `a` with buffer id 0; on disk
`a` is unchanged and a new file `bb` appears; the commit appends revision 1
whose `a` node carries the identical buffer `⟨0, [1, 2]⟩`. -/
theorem structural_sharing_witness :
    (∃ rN1,
      (⟨"b", "/d",
        [⟨0, none, 0, .mk "d" [("a", ⟨"a", ⟨0, [1, 2]⟩, 5⟩)] []⟩,
         ⟨1, none, 7, .mk "d" [("a", ⟨"a", ⟨0, [1, 2]⟩, 5⟩), ("bb", ⟨"bb", ⟨1, [3]⟩, 6⟩)] []⟩],
        2⟩ : BranchM).revisions.getLast? = some rN1 ∧
      fileAt rN1.root [] "a" = some ⟨"a", (⟨0, [1, 2]⟩ : CBuf), 5⟩) ∧
    (∀ c : Nat, commitFile "a" (some ⟨"a", ⟨0, [1, 2]⟩, 5⟩)
      (FileN.mk "a" ⟨0, [1, 2]⟩ 5).data.bytes 5 c = (⟨"a", ⟨0, [1, 2]⟩, 5⟩, c)) :=
  structural_sharing
    ⟨"b", "/d", [⟨0, none, 0, .mk "d" [("a", ⟨"a", ⟨0, [1, 2]⟩, 5⟩)] []⟩], 1⟩
    [("a", .file [1, 2] 5 true), ("bb", .file [3] 6 true)] none 7
    ⟨0, none, 0, .mk "d" [("a", ⟨"a", ⟨0, [1, 2]⟩, 5⟩)] []⟩ [] "a"
    ⟨"a", ⟨0, [1, 2]⟩, 5⟩ 5
    ⟨"b", "/d",
      [⟨0, none, 0, .mk "d" [("a", ⟨"a", ⟨0, [1, 2]⟩, 5⟩)] []⟩,
       ⟨1, none, 7, .mk "d" [("a", ⟨"a", ⟨0, [1, 2]⟩, 5⟩), ("bb", ⟨"bb", ⟨1, [3]⟩, 6⟩)] []⟩],
      2⟩
    (by rfl)
    (by simp [wfFS, wfFSList, nodupKeys, lookupA])
    (by simp [fileAt, DirN.files, lookupA])
    (by simp [fsAt, lookupA])
    (by simp [branchCommit, revisionCommit, commitDir, commitEntries, commitFile,
      prevFileOf, prevDirOf, sameAsPrev, baseName, baseNameAux, setA, lookupA,
      eqDir, eqDirs, eqFiles, eqFile, dpath, DirN.files, DirN.dirs])

/-! ### Additive restore (C9 machinery) -/

theorem fsAt_setA_ne (l : List (String × FSTree)) (k h : String) (v : FSTree)
    (rest : List String) (hne : h ≠ k) :
    fsAt (setA l k v) (h :: rest) = fsAt l (h :: rest) := by
  simp only [fsAt, lookupA_setA]
  rw [if_neg (fun hh => hne hh.symm)]

theorem updateFileInto_frame (f : FileN) (es es' : List (String × FSTree))
    (h : updateFileInto f es = .ok es') (hh : String) (rest : List String)
    (t : FSTree) (hne : hh ≠ f.name) (hat : fsAt es (hh :: rest) = some t) :
    fsAt es' (hh :: rest) = some t := by
  unfold updateFileInto at h
  rcases hl : lookupA es f.name with _ | t0
  · rw [hl] at h
    simp only [Except.ok.injEq] at h
    rw [← h, fsAt_setA_ne es f.name hh _ rest hne]
    exact hat
  · rcases t0 with ⟨c0, m0, r0⟩ | sub
    · rw [hl] at h
      simp only [Except.ok.injEq] at h
      rw [← h, fsAt_setA_ne es f.name hh _ rest hne]
      exact hat
    · rw [hl] at h
      cases h

theorem updateFiles_frame (files : List (String × FileN)) :
    ∀ (es es' : List (String × FSTree)),
      (files.all fun kf => kf.1 == kf.2.name) = true →
      updateFiles files es = .ok es' →
      ∀ (hh : String) (rest : List String) (t : FSTree),
        lookupA files hh = none →
        fsAt es (hh :: rest) = some t → fsAt es' (hh :: rest) = some t := by
  induction files with
  | nil =>
    intro es es' hall h hh rest t hl hat
    simp only [updateFiles, Except.ok.injEq] at h
    rw [← h]
    exact hat
  | cons hd tl ih =>
    intro es es' hall h hh rest t hl hat
    obtain ⟨k0, f0⟩ := hd
    simp only [List.all_cons, Bool.and_eq_true, beq_iff_eq] at hall
    have hk0 : ¬ k0 = hh := by
      intro hkh
      simp only [lookupA, if_pos hkh] at hl
      cases hl
    simp only [lookupA, if_neg hk0] at hl
    rcases hf : updateFileInto f0 es with e | es1
    · simp only [updateFiles, hf] at h
      cases h
    · simp only [updateFiles, hf] at h
      have hstep := updateFileInto_frame f0 es es1 hf hh rest t
        (by rw [← hall.1]; exact fun hhk => hk0 hhk.symm) hat
      exact ih es1 es' hall.2 h hh rest t hl hstep

theorem updateFiles_dir_clash (files : List (String × FileN)) :
    ∀ (es : List (String × FSTree)) (m : String) (f : FileN)
      (sub : List (String × FSTree)) (es' : List (String × FSTree)),
      (files.all fun kf => kf.1 == kf.2.name) = true →
      lookupA files m = some f →
      lookupA es m = some (.dir sub) →
      updateFiles files es = .ok es' → False := by
  induction files with
  | nil =>
    intro es m f sub es' hall hlf hes h
    simp [lookupA] at hlf
  | cons hd tl ih =>
    intro es m f sub es' hall hlf hes h
    obtain ⟨k0, f0⟩ := hd
    simp only [List.all_cons, Bool.and_eq_true, beq_iff_eq] at hall
    by_cases hk0 : k0 = m
    · subst hk0
      have hes' : lookupA es f0.name = some (.dir sub) := by
        rw [← hall.1]
        exact hes
      have hfi : updateFileInto f0 es = .error .ioFailure := by
        simp only [updateFileInto, hes']
      simp only [updateFiles, hfi] at h
      cases h
    · simp only [lookupA, if_neg hk0] at hlf
      rcases hf : updateFileInto f0 es with e | es1
      · simp only [updateFiles, hf] at h
        cases h
      · simp only [updateFiles, hf] at h
        have hes1 : lookupA es1 m = some (.dir sub) := by
          unfold updateFileInto at hf
          rcases hl0 : lookupA es f0.name with _ | t0
          · rw [hl0] at hf
            simp only [Except.ok.injEq] at hf
            rw [← hf, lookupA_setA]
            rw [if_neg (by rw [← hall.1]; exact hk0)]
            exact hes
          · rcases t0 with ⟨c0, m0, r0⟩ | sub0
            · rw [hl0] at hf
              simp only [Except.ok.injEq] at hf
              rw [← hf, lookupA_setA]
              rw [if_neg (by rw [← hall.1]; exact hk0)]
              exact hes
            · rw [hl0] at hf
              cases hf
        exact ih es1 m f sub es' hall.2 hlf hes1 h

theorem updateDir_additive :
    ∀ (d : DirN) (dest : List (String × FSTree)),
      wfKeysDir d = true →
      ∀ (dest' : List (String × FSTree)) (p : List String) (t : FSTree),
        updateDir d dest = .ok dest' →
        fsAt dest p = some t → treeHas d p = false →
        fsAt dest' p = some t := by
  refine updateDir.induct
    (fun d dest => wfKeysDir d = true →
      ∀ dest' p t, updateDir d dest = .ok dest' →
        fsAt dest p = some t → treeHas d p = false → fsAt dest' p = some t)
    (fun ds es => wfKeysDirs ds = true →
      ∀ es' p t, updateDirs ds es = .ok es' →
        fsAt es p = some t → (∀ kd, kd ∈ ds → treeHas kd.2 p = false) →
        fsAt es' p = some t)
    ?_ ?_ ?_ ?_ ?_ ?_ ?_
  · intro dest n files dirs e hm hwf dest' p t hok hat hnot
    simp only [updateDir, hm] at hok
    cases hok
  · intro dest n files dirs es0 hm e hfs hwf dest' p t hok hat hnot
    simp only [updateDir, hm, hfs] at hok
    cases hok
  · intro dest n files dirs es0 hm es1 hfs e hds ih hwf dest' p t hok hat hnot
    simp only [updateDir, hm, hfs, hds] at hok
    cases hok
  · intro dest n files dirs es0 hm es1 hfs es2 hds ih hwf dest' p t hok hat hnot
    simp only [updateDir, hm, hfs, hds, Except.ok.injEq] at hok
    subst hok
    simp only [wfKeysDir, Bool.and_eq_true] at hwf
    obtain ⟨⟨⟨⟨hndf, hndd⟩, hallf⟩, halld⟩, hwfds⟩ := hwf
    rcases p with _ | ⟨hh, rest⟩
    · simp [fsAt] at hat
    by_cases hhn : hh = n
    · subst hhn
      simp only [treeHas, DirN.name, beq_self_eq_true, Bool.true_and] at hnot
      rcases rest with _ | ⟨m, rest2⟩
      · simp [hasRel] at hnot
      rcases hl : lookupA dest hh with _ | t0
      · rw [hl] at hm
        simp only [fsAt, hl] at hat
        cases hat
      · rcases t0 with ⟨c0, m0, r0⟩ | esD
        · rw [hl] at hm
          cases hm
        · rw [hl] at hm
          simp only [Except.ok.injEq] at hm
          subst hm
          have hat0 : fsAt esD (m :: rest2) = some t := by
            simpa [fsAt, hl] using hat
          have hgoal : fsAt (setA dest hh (.dir es2)) (hh :: m :: rest2)
              = fsAt es2 (m :: rest2) := by
            simp [fsAt, lookupA_setA]
          rw [hgoal]
          simp only [hasRel, DirN.files, DirN.dirs] at hnot
          rcases hfm : lookupA files m with _ | fm
          · rw [hfm] at hnot
            have hat1 : fsAt es1 (m :: rest2) = some t :=
              updateFiles_frame files esD es1 hallf hfs m rest2 t hfm hat0
            have hclaims : ∀ kd, kd ∈ dirs → treeHas kd.2 (m :: rest2) = false := by
              intro kd hkd
              obtain ⟨k, sub⟩ := kd
              have hksub : k = sub.name := by
                have := List.all_eq_true.mp halld _ hkd
                simpa using this
              by_cases hkm : k = m
              · subst hkm
                have hlk : lookupA dirs k = some sub := lookupA_of_mem dirs k sub hndd hkd
                rw [hlk] at hnot
                simp only [treeHas]
                rw [← hksub]
                simp only [beq_self_eq_true, Bool.true_and]
                exact hnot
              · simp only [treeHas]
                have : ¬ m = sub.name := by
                  rw [← hksub]
                  exact fun hmk => hkm hmk.symm
                simp [this]
            exact ih hwfds es2 (m :: rest2) t hds hat1 hclaims
          · rw [hfm] at hnot
            rcases rest2 with _ | ⟨x, xs⟩
            · simp at hnot
            · rcases hl0 : lookupA esD m with _ | t1
              · simp only [fsAt, hl0] at hat0
                cases hat0
              · rcases t1 with ⟨c1, m1, r1⟩ | subD
                · simp only [fsAt, hl0] at hat0
                  cases hat0
                · exact absurd (updateFiles_dir_clash files esD m fm subD es1
                    hallf hfm hl0 hfs) (fun hF => hF)
    · rcases rest with _ | ⟨m, rest2⟩
      · rw [fsAt_setA_ne dest n hh _ [] (fun hq => hhn hq)]
        exact hat
      · rw [fsAt_setA_ne dest n hh _ (m :: rest2) (fun hq => hhn hq)]
        exact hat
  · intro es hwf es' p t hok hat hnot
    simp only [updateDirs, Except.ok.injEq] at hok
    rw [← hok]
    exact hat
  · intro k d rest es e hd ih hwf es' p t hok hat hnot
    simp only [updateDirs, hd] at hok
    cases hok
  · intro k d rest es es1 hd ih ihrest hwf es' p t hok hat hnot
    simp only [updateDirs, hd] at hok
    simp only [wfKeysDirs, Bool.and_eq_true] at hwf
    have hstep : fsAt es1 p = some t :=
      ih hwf.1 es1 p t hd hat (hnot (k, d) (List.mem_cons_self _ _))
    exact ihrest hwf.2 es' p t hok hstep
      (fun kd hkd => hnot kd (List.mem_cons_of_mem _ hkd))

/-- **C9.** Additive restore: restoring a revision onto a directory never
deletes on-disk entries absent from the snapshot — every file or directory
path present in the destination's parent before a successful restore and not
claimed by the restored tree still resolves to exactly the same content
afterwards (so restore only creates directories and writes files named in the
tree).  The `wfKeysDir` hypothesis (dict keys distinct and equal to the node
names) holds for every tree built by `Directory.commit`, by `commit_wfKeys`. -/
theorem additive_restore (r : RevisionM) (parent parent' : List (String × FSTree))
    (p : List String) (t : FSTree)
    (hwf : wfKeysDir r.root = true)
    (hok : revisionUpdate r parent = .ok parent')
    (hbefore : fsAt parent p = some t)
    (hnot : treeHas r.root p = false) :
    fsAt parent' p = some t :=
  updateDir_additive r.root parent hwf parent' p t hok hbefore hnot

/-- Witness: restoring a revision containing only `d/a` onto a parent whose
`d` already contains `x`; `x` survives with its content. -/
theorem additive_restore_witness :
    fsAt [("d", .dir [("x", .file [9] 0 true), ("a", .file [1] 0 true)])] ["d", "x"]
      = some (.file [9] 0 true) :=
  additive_restore ⟨0, none, 0, .mk "d" [("a", ⟨"a", ⟨0, [1]⟩, 0⟩)] []⟩
    [("d", .dir [("x", .file [9] 0 true)])]
    [("d", .dir [("x", .file [9] 0 true), ("a", .file [1] 0 true)])]
    ["d", "x"] (.file [9] 0 true)
    (by simp [wfKeysDir, wfKeysDirs, nodupKeys, lookupA, DirN.name])
    (by simp [revisionUpdate, updateDir, updateFiles, updateFileInto, updateDirs,
      lookupA, setA])
    (by simp [fsAt, lookupA])
    (by simp [treeHas, hasRel, DirN.name, DirN.files, DirN.dirs, lookupA])

/-! ### Round trip (C2 machinery) -/

theorem setA_absent {α : Type} (l : List (String × α)) (k : String) (v : α)
    (h : lookupA l k = none) : setA l k v = l ++ [(k, v)] := by
  induction l with
  | nil => rfl
  | cons hd tl ih =>
    obtain ⟨k0, v0⟩ := hd
    have hk0 : ¬ k0 = k := by
      intro hkk
      simp only [lookupA, if_pos hkk] at h
      cases h
    simp only [lookupA, if_neg hk0] at h
    simp only [setA, if_neg hk0, List.cons_append, List.cons.injEq, true_and]
    exact ih h

theorem lookupA_append {α : Type} (l1 l2 : List (String × α)) (k : String) :
    lookupA (l1 ++ l2) k =
      match lookupA l1 k with
      | some v => some v
      | none => lookupA l2 k := by
  induction l1 with
  | nil => simp [lookupA]
  | cons hd tl ih =>
    obtain ⟨k0, v0⟩ := hd
    by_cases hk0 : k0 = k
    · simp [lookupA, hk0]
    · simp only [List.cons_append, lookupA, if_neg hk0]
      exact ih

theorem lookupA_none_of_not_key {α : Type} (l : List (String × α)) (k k2 : String)
    (v : α) (h : lookupA l k = none) (hm : (k2, v) ∈ l) : k2 ≠ k := by
  intro hkk
  subst hkk
  have := lookupA_isSome_of_mem l k2 v hm
  rw [h] at this
  cases this

theorem disjDirs_setA (l : List (String × DirN)) (k : String) (d : DirN)
    (hl : disjDirs l = true) (hd : disjDir d = true) :
    disjDirs (setA l k d) = true := by
  induction l with
  | nil => simp [setA, disjDirs, hd]
  | cons hd0 tl ih =>
    obtain ⟨k0, d0⟩ := hd0
    simp only [disjDirs, Bool.and_eq_true] at hl
    by_cases h0 : k0 = k
    · simp only [setA, if_pos h0, disjDirs, Bool.and_eq_true]
      exact ⟨hd, hl.2⟩
    · simp only [setA, if_neg h0, disjDirs, Bool.and_eq_true]
      exact ⟨hl.1, ih hl.2⟩

theorem commit_disj :
    ∀ (name : String) (prev : Option DirN) (entries : List (String × FSTree))
      (cnt : Nat) (d : DirN) (cnt' : Nat),
      nodupKeys entries = true → wfFSList entries = true →
      commitDir name prev entries cnt = .ok (d, cnt') → disjDir d = true := by
  have main : ∀ (prev : Option DirN) (entries : List (String × FSTree))
      (files : List (String × FileN)) (dirs : List (String × DirN)) (cnt : Nat),
      nodupKeys entries = true → wfFSList entries = true →
      (∀ k, (lookupA entries k).isSome →
        (lookupA files k).isNone = true ∧ (lookupA dirs k).isNone = true) →
      (files.all fun kf => (lookupA dirs kf.1).isNone) = true →
      disjDirs dirs = true →
      ∀ F D c', commitEntries prev entries files dirs cnt = .ok (F, D, c') →
        (F.all fun kf => (lookupA D kf.1).isNone) = true ∧ disjDirs D = true := by
    refine commitEntries.induct
      (fun name prev entries cnt =>
        nodupKeys entries = true → wfFSList entries = true →
        ∀ d c', commitDir name prev entries cnt = .ok (d, c') → disjDir d = true)
      (fun prev entries files dirs cnt =>
        nodupKeys entries = true → wfFSList entries = true →
        (∀ k, (lookupA entries k).isSome →
          (lookupA files k).isNone = true ∧ (lookupA dirs k).isNone = true) →
        (files.all fun kf => (lookupA dirs kf.1).isNone) = true →
        disjDirs dirs = true →
        ∀ F D c', commitEntries prev entries files dirs cnt = .ok (F, D, c') →
          (F.all fun kf => (lookupA D kf.1).isNone) = true ∧ disjDirs D = true)
      ?_ ?_ ?_ ?_ ?_ ?_ ?_
    · intro name prev entries cnt e hce ih hnd hwl d c' h
      simp only [commitDir, hce] at h
      cases h
    · intro name prev entries cnt files dirs cnt' hce ih hnd hwl d c' h
      simp only [commitDir, hce] at h
      cases h
      obtain ⟨h1, h2⟩ := ih hnd hwl (by simp [lookupA]) (by simp) rfl files dirs cnt' hce
      simp only [disjDir, Bool.and_eq_true]
      exact ⟨h1, h2⟩
    · intro prev files dirs cnt hnd hwl hfresh hdisj hdds F D c' h
      simp only [commitEntries, Except.ok.injEq, Prod.mk.injEq] at h
      obtain ⟨e1, e2, e3⟩ := h
      rw [← e1, ← e2]
      exact ⟨hdisj, hdds⟩
    · intro prev files dirs cnt ename content mt rest fc ih hnd hwl hfresh hdisj hdds F D c' h
      simp only [commitEntries, if_pos] at h
      simp only [nodupKeys, Bool.and_eq_true] at hnd
      simp only [wfFSList, Bool.and_eq_true] at hwl
      refine ih hnd.2 hwl.2 ?_ ?_ hdds F D c' h
      · intro k hk
        have hkne : ¬ ename = k := by
          intro he
          subst he
          have := hnd.1
          rw [Option.isNone_iff_eq_none] at this
          rw [this] at hk
          cases hk
        have := hfresh k (by
          simp only [lookupA, if_neg hkne]
          exact hk)
        refine ⟨?_, this.2⟩
        rw [lookupA_setA]
        rw [if_neg hkne]
        exact this.1
      · refine allP_setA _ files ename fc.1 hdisj ?_
        have := hfresh ename (by simp [lookupA])
        exact this.2
    · intro prev files dirs cnt ename content mt rb rest hrb hnd hwl hfresh hdisj hdds F D c' h
      simp only [commitEntries, if_neg hrb] at h
      cases h
    · intro prev files dirs cnt ename sub rest e hcd ih hnd hwl hfresh hdisj hdds F D c' h
      simp only [commitEntries, hcd] at h
      cases h
    · intro prev files dirs cnt ename sub rest d cnt' hcd ih ihrest hnd hwl hfresh hdisj hdds F D c' h
      simp only [commitEntries, hcd] at h
      simp only [nodupKeys, Bool.and_eq_true] at hnd
      simp only [wfFSList, Bool.and_eq_true] at hwl
      have hsubwf : wfFS (.dir sub) = true := hwl.1
      simp only [wfFS, Bool.and_eq_true] at hsubwf
      have hddisj : disjDir d = true := ih hsubwf.1 hsubwf.2 d cnt' hcd
      have hfreshE := hfresh ename (by simp [lookupA])
      refine ihrest hnd.2 hwl.2 ?_ ?_ ?_ F D c' h
      · intro k hk
        have hkne : ¬ ename = k := by
          intro he
          subst he
          have := hnd.1
          rw [Option.isNone_iff_eq_none] at this
          rw [this] at hk
          cases hk
        have := hfresh k (by
          simp only [lookupA, if_neg hkne]
          exact hk)
        refine ⟨this.1, ?_⟩
        rw [lookupA_setA]
        rw [if_neg hkne]
        exact this.2
      · refine List.all_eq_true.mpr ?_
        intro kf hkf
        have hold := List.all_eq_true.mp hdisj kf hkf
        simp only [lookupA_setA]
        have hkne : ¬ ename = kf.1 := by
          intro he
          have h1 := hfreshE.1
          rw [Option.isNone_iff_eq_none] at h1
          have := lookupA_none_of_not_key files ename kf.1 kf.2 h1 (by
            rw [← Prod.mk.eta (p := kf)] at hkf
            exact hkf)
          exact this he.symm
        rw [if_neg hkne]
        simpa using hold
      · exact disjDirs_setA dirs ename d hdds hddisj
  intro name prev entries cnt d cnt' hnd hwl h
  obtain ⟨files, dirs, hshape, hce⟩ := commitDir_ok_shape name prev entries cnt d cnt' h
  obtain ⟨h1, h2⟩ := main prev entries [] [] cnt hnd hwl (by simp [lookupA]) (by simp) rfl
    files dirs cnt' hce
  rw [hshape]
  simp only [disjDir, Bool.and_eq_true]
  exact ⟨h1, h2⟩

theorem updateFiles_fresh (files : List (String × FileN)) :
    ∀ es, nodupKeys files = true → (files.all fun kf => kf.1 == kf.2.name) = true →
      (∀ kf, kf ∈ files → lookupA es kf.1 = none) →
      updateFiles files es =
        .ok (es ++ files.map fun kf => (kf.2.name, .file kf.2.data.bytes 0 true)) := by
  induction files with
  | nil =>
    intro es _ _ _
    simp [updateFiles]
  | cons hd tl ih =>
    obtain ⟨k, f⟩ := hd
    intro es hnd hall hfresh
    simp only [nodupKeys, Bool.and_eq_true] at hnd
    simp only [List.all_cons, Bool.and_eq_true, beq_iff_eq] at hall
    have hkf : f.name = k := hall.1.symm
    have hes : lookupA es f.name = none := by
      rw [hkf]
      exact hfresh (k, f) (List.mem_cons_self _ _)
    have hset : updateFileInto f es = .ok (es ++ [(f.name, .file f.data.bytes 0 true)]) := by
      simp only [updateFileInto, hes]
      rw [setA_absent es f.name _ hes]
    simp only [updateFiles, hset]
    have hfresh2 : ∀ kf, kf ∈ tl →
        lookupA (es ++ [(f.name, FSTree.file f.data.bytes 0 true)]) kf.1 = none := by
      intro kf hkf2
      rw [lookupA_append]
      rw [hfresh kf (List.mem_cons_of_mem _ hkf2)]
      have hne : kf.1 ≠ k := by
        have hk0 := hnd.1
        rw [Option.isNone_iff_eq_none] at hk0
        rw [← Prod.mk.eta (p := kf)] at hkf2
        exact lookupA_none_of_not_key tl k kf.1 kf.2 hk0 hkf2
      simp only [lookupA, hkf]
      rw [if_neg (fun hq => hne hq.symm)]
    have hih := ih (es ++ [(f.name, FSTree.file f.data.bytes 0 true)]) hnd.2 hall.2 hfresh2
    rw [hih]
    simp [hkf]

/-- The entry list written by the file loop of a restore binds only file
names, so a directory child's name (disjoint from them) is absent. -/
theorem restored_files_fresh (files : List (String × FileN)) (dirs : List (String × DirN))
    (hallf : (files.all fun kf => kf.1 == kf.2.name) = true)
    (hdisjf : (files.all fun kf => (lookupA dirs kf.1).isNone) = true) :
    ∀ kd, kd ∈ dirs →
      lookupA (files.map fun kf => (kf.2.name, FSTree.file kf.2.data.bytes 0 true)) kd.1
        = none := by
  intro kd hkd
  rcases hlk : lookupA (files.map fun kf => (kf.2.name, FSTree.file kf.2.data.bytes 0 true)) kd.1
    with _ | t0
  · exact hlk
  · exfalso
    have hmem := lookupA_mem _ kd.1 t0 hlk
    obtain ⟨kf, hkfmem, hkfeq⟩ := List.mem_map.mp hmem
    have hk1 : kf.2.name = kd.1 := congrArg Prod.fst hkfeq
    have hkone : kf.1 = kf.2.name := by
      have := List.all_eq_true.mp hallf _ hkfmem
      simpa using this
    have hfileK : (lookupA files kd.1).isSome = true := by
      rw [← hk1, ← hkone]
      rw [← Prod.mk.eta (p := kf)] at hkfmem
      exact lookupA_isSome_of_mem files kf.1 kf.2 hkfmem
    rcases hlf : lookupA files kd.1 with _ | f0
    · rw [hlf] at hfileK; cases hfileK
    · have hmemf := lookupA_mem files kd.1 f0 hlf
      have hdisj1 := List.all_eq_true.mp hdisjf _ hmemf
      simp only at hdisj1
      have hdirK : (lookupA dirs kd.1).isSome = true := by
        rw [← Prod.mk.eta (p := kd)] at hkd
        exact lookupA_isSome_of_mem dirs kd.1 kd.2 hkd
      rw [Option.isNone_iff_eq_none] at hdisj1
      rw [hdisj1] at hdirK
      cases hdirK

theorem restore_empty :
    ∀ (d : DirN) (dest : List (String × FSTree)),
      wfKeysDir d = true → disjDir d = true →
      lookupA dest (DirN.name d) = none →
      updateDir d dest = .ok (dest ++ [(DirN.name d, .dir (restoredEntries d))]) := by
  refine updateDir.induct
    (fun d dest => wfKeysDir d = true → disjDir d = true →
      lookupA dest (DirN.name d) = none →
      updateDir d dest = .ok (dest ++ [(DirN.name d, .dir (restoredEntries d))]))
    (fun ds es => wfKeysDirs ds = true → disjDirs ds = true →
      nodupKeys ds = true → (ds.all fun kd => kd.1 == kd.2.name) = true →
      (∀ kd, kd ∈ ds → lookupA es kd.1 = none) →
      updateDirs ds es = .ok (es ++ restoredDirs ds))
    ?_ ?_ ?_ ?_ ?_ ?_ ?_
  · intro dest n files dirs e hm hwf hdisj hfresh
    simp only [DirN.name] at hfresh
    rw [hfresh] at hm
    cases hm
  · intro dest n files dirs es0 hm e hfs hwf hdisj hfresh
    simp only [DirN.name] at hfresh
    rw [hfresh] at hm
    simp only [Except.ok.injEq] at hm
    subst hm
    simp only [wfKeysDir, Bool.and_eq_true] at hwf
    obtain ⟨⟨⟨⟨hndf, hndd⟩, hallf⟩, halld⟩, hwfds⟩ := hwf
    rw [updateFiles_fresh files [] hndf hallf (by intro kf _; simp [lookupA])] at hfs
    cases hfs
  · intro dest n files dirs es0 hm es1 hfs e hds ih hwf hdisj hfresh
    simp only [DirN.name] at hfresh
    rw [hfresh] at hm
    simp only [Except.ok.injEq] at hm
    subst hm
    simp only [wfKeysDir, Bool.and_eq_true] at hwf
    obtain ⟨⟨⟨⟨hndf, hndd⟩, hallf⟩, halld⟩, hwfds⟩ := hwf
    simp only [disjDir, DirN.files, DirN.dirs, Bool.and_eq_true] at hdisj
    rw [updateFiles_fresh files [] hndf hallf (by intro kf _; simp [lookupA])] at hfs
    simp only [Except.ok.injEq] at hfs
    subst hfs
    rw [ih hwfds hdisj.2 hndd halld (by
      intro kd hkd
      simp only [List.nil_append]
      exact restored_files_fresh files dirs hallf hdisj.1 kd hkd)] at hds
    cases hds
  · intro dest n files dirs es0 hm es1 hfs es2 hds ih hwf hdisj hfresh
    simp only [DirN.name] at hfresh
    rw [hfresh] at hm
    simp only [Except.ok.injEq] at hm
    subst hm
    simp only [wfKeysDir, Bool.and_eq_true] at hwf
    obtain ⟨⟨⟨⟨hndf, hndd⟩, hallf⟩, halld⟩, hwfds⟩ := hwf
    simp only [disjDir, DirN.files, DirN.dirs, Bool.and_eq_true] at hdisj
    have hfs2 := updateFiles_fresh files [] hndf hallf (by intro kf _; simp [lookupA])
    rw [hfs2] at hfs
    simp only [Except.ok.injEq] at hfs
    subst hfs
    have hds2 := ih hwfds hdisj.2 hndd halld (by
      intro kd hkd
      simp only [List.nil_append]
      exact restored_files_fresh files dirs hallf hdisj.1 kd hkd)
    rw [hds2] at hds
    simp only [Except.ok.injEq] at hds
    subst hds
    have hm0 : (match lookupA dest n with
        | some (FSTree.dir es0) => Except.ok es0
        | some (FSTree.file c m r) => Except.error VcError.ioFailure
        | none => Except.ok ([] : List (String × FSTree))) =
        Except.ok ([] : List (String × FSTree)) := by
      rw [hfresh]
    simp only [updateDir, hm0, hfs2, hds2]
    rw [setA_absent dest n _ hfresh]
    simp [restoredEntries, DirN.name]
  · intro es hwf hdisj hnd hall hfresh
    simp [updateDirs, restoredDirs]
  · intro k d rest es e hd ih hwf hdisj hnd hall hfresh
    simp only [wfKeysDirs, Bool.and_eq_true] at hwf
    simp only [disjDirs, Bool.and_eq_true] at hdisj
    simp only [List.all_cons, Bool.and_eq_true, beq_iff_eq] at hall
    have hkd : DirN.name d = k := hall.1.symm
    have := ih hwf.1 hdisj.1 (by rw [hkd]; exact hfresh (k, d) (List.mem_cons_self _ _))
    rw [this] at hd
    cases hd
  · intro k d rest es es1 hd ih ihrest hwf hdisj hnd hall hfresh
    simp only [wfKeysDirs, Bool.and_eq_true] at hwf
    simp only [disjDirs, Bool.and_eq_true] at hdisj
    simp only [List.all_cons, Bool.and_eq_true, beq_iff_eq] at hall
    simp only [nodupKeys, Bool.and_eq_true] at hnd
    have hkd : DirN.name d = k := hall.1.symm
    have hdone := ih hwf.1 hdisj.1 (by rw [hkd]; exact hfresh (k, d) (List.mem_cons_self _ _))
    rw [hdone] at hd
    simp only [Except.ok.injEq] at hd
    subst hd
    have hfresh2 : ∀ kd, kd ∈ rest →
        lookupA (es ++ [(DirN.name d, FSTree.dir (restoredEntries d))]) kd.1 = none := by
      intro kd hkd2
      rw [lookupA_append]
      rw [hfresh kd (List.mem_cons_of_mem _ hkd2)]
      have hne : kd.1 ≠ k := by
        have hk0 := hnd.1
        rw [Option.isNone_iff_eq_none] at hk0
        rw [← Prod.mk.eta (p := kd)] at hkd2
        exact lookupA_none_of_not_key rest k kd.1 kd.2 hk0 hkd2
      simp only [lookupA, hkd]
      rw [if_neg (fun hq => hne hq.symm)]
    simp only [updateDirs, hdone]
    rw [ihrest hwf.2 hdisj.2 hnd.2 hall.2 hfresh2]
    simp only [restoredDirs, hkd, List.append_assoc, List.singleton_append]

theorem shapeEntries_append (l1 l2 : List (String × FSTree)) :
    ∀ facc dacc f1 d1,
      shapeEntries l1 facc dacc = .ok (f1, d1) →
      shapeEntries (l1 ++ l2) facc dacc = shapeEntries l2 f1 d1 := by
  induction l1 with
  | nil =>
    intro facc dacc f1 d1 h
    simp only [shapeEntries, Except.ok.injEq, Prod.mk.injEq] at h
    obtain ⟨h1, h2⟩ := h
    rw [List.nil_append, h1, h2]
  | cons hd tl ih =>
    intro facc dacc f1 d1 h
    obtain ⟨k, t⟩ := hd
    rcases t with ⟨content, mt, rb⟩ | sub
    · rcases rb with _ | _
      · simp only [shapeEntries, Bool.false_eq_true, if_neg] at h
        cases h
      · simp only [List.cons_append, shapeEntries, if_pos] at h ⊢
        exact ih _ _ f1 d1 h
    · rcases hsd : shapeDir k sub with e | d0
      · simp only [shapeEntries, hsd] at h
        cases h
      · simp only [List.cons_append, shapeEntries, hsd] at h ⊢
        exact ih _ _ f1 d1 h

theorem shapeEntries_files (files : List (String × FileN)) :
    ∀ facc dacc,
      nodupKeys files = true → (files.all fun kf => kf.1 == kf.2.name) = true →
      (∀ kf, kf ∈ files → lookupA facc kf.1 = none) →
      shapeEntries (files.map fun kf => (kf.2.name, .file kf.2.data.bytes 0 true)) facc dacc
        = .ok (facc ++ stripFiles files, dacc) := by
  induction files with
  | nil =>
    intro facc dacc _ _ _
    simp [shapeEntries, stripFiles]
  | cons hd tl ih =>
    intro facc dacc hnd hall hfresh
    obtain ⟨k, f⟩ := hd
    simp only [nodupKeys, Bool.and_eq_true] at hnd
    simp only [List.all_cons, Bool.and_eq_true, beq_iff_eq] at hall
    have hkf : f.name = k := hall.1.symm
    have hes : lookupA facc f.name = none := by
      rw [hkf]
      exact hfresh (k, f) (List.mem_cons_self _ _)
    simp only [List.map_cons, shapeEntries, if_pos]
    rw [setA_absent facc f.name _ hes]
    have hfresh2 : ∀ kf, kf ∈ tl →
        lookupA (facc ++ [(f.name, FileN.mk f.name ⟨0, f.data.bytes⟩ 0)]) kf.1 = none := by
      intro kf hkf2
      rw [lookupA_append]
      rw [hfresh kf (List.mem_cons_of_mem _ hkf2)]
      have hne : kf.1 ≠ k := by
        have hk0 := hnd.1
        rw [Option.isNone_iff_eq_none] at hk0
        rw [← Prod.mk.eta (p := kf)] at hkf2
        exact lookupA_none_of_not_key tl k kf.1 kf.2 hk0 hkf2
      simp only [lookupA, hkf]
      rw [if_neg (fun hq => hne hq.symm)]
    rw [ih (facc ++ [(f.name, FileN.mk f.name ⟨0, f.data.bytes⟩ 0)]) dacc hnd.2 hall.2 hfresh2]
    simp [stripFiles, stripFile, hkf]

theorem shape_restored :
    ∀ d : DirN, wfKeysDir d = true →
      shapeDir (DirN.name d) (restoredEntries d) = .ok (stripDir d) := by
  refine wfKeysDir.induct
    (fun d => wfKeysDir d = true →
      shapeDir (DirN.name d) (restoredEntries d) = .ok (stripDir d))
    (fun ds => wfKeysDirs ds = true → nodupKeys ds = true →
      (ds.all fun kd => kd.1 == kd.2.name) = true →
      ∀ facc dacc, (∀ kd, kd ∈ ds → lookupA dacc kd.1 = none) →
      shapeEntries (restoredDirs ds) facc dacc = .ok (facc, dacc ++ stripDirs ds))
    ?_ ?_ ?_
  · intro n files dirs ih hwf
    simp only [wfKeysDir, Bool.and_eq_true] at hwf
    obtain ⟨⟨⟨⟨hndf, hndd⟩, hallf⟩, halld⟩, hwfds⟩ := hwf
    have hfiles := shapeEntries_files files [] [] hndf hallf (by intro kf _; simp [lookupA])
    have happ := shapeEntries_append
      (files.map fun kf => (kf.2.name, .file kf.2.data.bytes 0 true))
      (restoredDirs dirs) [] [] ([] ++ stripFiles files) [] hfiles
    have hdirs := ih hwfds hndd halld ([] ++ stripFiles files) []
      (by intro kd _; simp [lookupA])
    simp only [List.nil_append] at happ hdirs
    simp only [DirN.name, restoredEntries, shapeDir, happ, hdirs, List.nil_append, stripDir]
  · intro _ _ _ facc dacc _
    simp [shapeEntries, restoredDirs, stripDirs]
  · intro k d rest ih1 ih2 hwf hnd hall facc dacc hfresh
    simp only [wfKeysDirs, Bool.and_eq_true] at hwf
    simp only [nodupKeys, Bool.and_eq_true] at hnd
    simp only [List.all_cons, Bool.and_eq_true, beq_iff_eq] at hall
    have hkd : DirN.name d = k := hall.1.symm
    have hsd := ih1 hwf.1
    simp only [restoredDirs, shapeEntries, hsd]
    have hdn : lookupA dacc (DirN.name d) = none := by
      rw [hkd]
      exact hfresh (k, d) (List.mem_cons_self _ _)
    rw [setA_absent dacc (DirN.name d) _ hdn]
    have hfresh2 : ∀ kd, kd ∈ rest →
        lookupA (dacc ++ [(DirN.name d, stripDir d)]) kd.1 = none := by
      intro kd hkd2
      rw [lookupA_append]
      rw [hfresh kd (List.mem_cons_of_mem _ hkd2)]
      have hne : kd.1 ≠ k := by
        have hk0 := hnd.1
        rw [Option.isNone_iff_eq_none] at hk0
        rw [← Prod.mk.eta (p := kd)] at hkd2
        exact lookupA_none_of_not_key rest k kd.1 kd.2 hk0 hkd2
      simp only [lookupA, hkd]
      rw [if_neg (fun hq => hne hq.symm)]
    rw [ih2 hwf.2 hnd.2 hall.2 facc (dacc ++ [(DirN.name d, stripDir d)]) hfresh2]
    simp only [stripDirs, hkd, List.append_assoc, List.singleton_append]

/-- **C2.** Round trip: for a committed root (captured by `Directory.commit`
from a duplicate-free filesystem), restoring it into an empty directory
produces exactly its restored entry list, and re-capturing that directory as
a candidate revision (against any predecessor and counter) succeeds and
yields a root `Directory.__eq__`-equal (deep-equal) to the committed root. -/
theorem round_trip (name : String) (prev : Option DirN) (es : List (String × FSTree))
    (cnt : Nat) (root : DirN) (cnt' : Nat)
    (hwf : wfFS (.dir es) = true)
    (hcommit : commitDir name prev es cnt = .ok (root, cnt')) :
    updateDir root [] = .ok [(DirN.name root, .dir (restoredEntries root))] ∧
    ∀ (prev2 : Option DirN) (cnt2 : Nat),
      ∃ root2 cnt2',
        commitDir (DirN.name root) prev2 (restoredEntries root) cnt2 = .ok (root2, cnt2') ∧
        eqDir none none root2 root = true := by
  have hwf' : nodupKeys es = true ∧ wfFSList es = true := by
    simpa [wfFS] using hwf
  have hkeys : wfKeysDir root = true := commit_wfKeys name prev es cnt root cnt' hcommit
  have hdisj : disjDir root = true :=
    commit_disj name prev es cnt root cnt' hwf'.1 hwf'.2 hcommit
  constructor
  · have := restore_empty root [] hkeys hdisj (by simp [lookupA])
    simpa using this
  · intro prev2 cnt2
    have hshape := shape_restored root hkeys
    have hmap := commit_strip_shape (DirN.name root) prev2 (restoredEntries root) cnt2
    rw [hshape] at hmap
    rcases hcd : commitDir (DirN.name root) prev2 (restoredEntries root) cnt2
      with e | ⟨root2, c2⟩
    · rw [hcd] at hmap
      simp [Except.map] at hmap
    · rw [hcd] at hmap
      simp only [Except.map, Except.ok.injEq] at hmap
      refine ⟨root2, c2, rfl, ?_⟩
      rw [eqDir_strip_congr none none root root root2 hmap]
      exact eqDir_refl root hkeys none

/-- Witness: commit a directory containing one file `a`, restore it into an
empty directory, recapture it; instantiated through `round_trip`. -/
theorem round_trip_witness :
    updateDir (.mk "d" [("a", ⟨"a", ⟨0, [1, 2]⟩, 5⟩)] []) [] =
      .ok [(DirN.name (.mk "d" [("a", ⟨"a", ⟨0, [1, 2]⟩, 5⟩)] []),
        .dir (restoredEntries (.mk "d" [("a", ⟨"a", ⟨0, [1, 2]⟩, 5⟩)] [])))] ∧
    ∀ (prev2 : Option DirN) (cnt2 : Nat),
      ∃ root2 cnt2',
        commitDir (DirN.name (.mk "d" [("a", ⟨"a", ⟨0, [1, 2]⟩, 5⟩)] [])) prev2
          (restoredEntries (.mk "d" [("a", ⟨"a", ⟨0, [1, 2]⟩, 5⟩)] [])) cnt2
          = .ok (root2, cnt2') ∧
        eqDir none none root2 (.mk "d" [("a", ⟨"a", ⟨0, [1, 2]⟩, 5⟩)] []) = true :=
  round_trip "d" none [("a", .file [1, 2] 5 true)] 0
    (.mk "d" [("a", ⟨"a", ⟨0, [1, 2]⟩, 5⟩)] []) 1
    (by simp [wfFS, wfFSList, nodupKeys, lookupA])
    (by simp [commitDir, commitEntries, commitFile, prevFileOf, setA])

/-! ### Node equality versus the specification wording (C4 machinery) -/

theorem nodupKeys_nodup_map {α : Type} (l : List (String × α))
    (h : nodupKeys l = true) : (l.map Prod.fst).Nodup := by
  induction l with
  | nil => simp
  | cons hd tl ih =>
    obtain ⟨k, v⟩ := hd
    simp only [nodupKeys, Bool.and_eq_true] at h
    simp only [List.map_cons, List.nodup_cons]
    refine ⟨?_, ih h.2⟩
    intro hmem
    obtain ⟨kf, hkfmem, hkeq⟩ := List.mem_map.mp hmem
    have h1 := h.1
    rw [Option.isNone_iff_eq_none] at h1
    rw [← Prod.mk.eta (p := kf)] at hkfmem
    exact lookupA_none_of_not_key tl k kf.1 kf.2 h1 hkfmem hkeq

theorem lookupA_isSome_iff_mem_keys {α : Type} (l : List (String × α)) (k : String) :
    (lookupA l k).isSome = true ↔ k ∈ l.map Prod.fst := by
  induction l with
  | nil => simp [lookupA]
  | cons hd tl ih =>
    obtain ⟨k0, v0⟩ := hd
    by_cases h0 : k0 = k
    · simp [lookupA, h0]
    · simp only [lookupA, if_neg h0, List.map_cons, List.mem_cons]
      rw [ih]
      constructor
      · exact fun h => Or.inr h
      · rintro (h | h)
        · exact absurd h.symm h0
        · exact h

theorem keys_isSome_iff {α β : Type} (l1 : List (String × α)) (l2 : List (String × β))
    (hnd1 : nodupKeys l1 = true) (hnd2 : nodupKeys l2 = true)
    (hlen : l1.length = l2.length)
    (hsub : ∀ k, (lookupA l1 k).isSome = true → (lookupA l2 k).isSome = true) :
    ∀ k, (lookupA l1 k).isSome = true ↔ (lookupA l2 k).isSome = true := by
  have hsubk : l1.map Prod.fst ⊆ l2.map Prod.fst := by
    intro k hk
    rw [← lookupA_isSome_iff_mem_keys] at hk
    rw [← lookupA_isSome_iff_mem_keys]
    exact hsub k hk
  have hperm : List.Perm (l1.map Prod.fst) (l2.map Prod.fst) := by
    refine List.Subperm.perm_of_length_le
      (List.subperm_of_subset (nodupKeys_nodup_map l1 hnd1) hsubk) ?_
    simp [hlen]
  intro k
  rw [lookupA_isSome_iff_mem_keys, lookupA_isSome_iff_mem_keys]
  exact ⟨fun h => hperm.mem_iff.mp h, fun h => hperm.mem_iff.mpr h⟩

theorem wfKeysDirs_mem (l : List (String × DirN)) (k : String) (d : DirN)
    (h : wfKeysDirs l = true) (hm : (k, d) ∈ l) : wfKeysDir d = true := by
  induction l with
  | nil => cases hm
  | cons hd tl ih =>
    obtain ⟨k0, d0⟩ := hd
    simp only [wfKeysDirs, Bool.and_eq_true] at h
    rcases List.mem_cons.mp hm with heq | hm'
    · cases heq; exact h.1
    · exact ih h.2 hm'

theorem eqFiles_true_lookup (p1 p2 : String) (l1 l2 : List (String × FileN)) :
    eqFiles p1 p2 l1 l2 = true → ∀ k f, lookupA l1 k = some f →
      ∃ g, lookupA l2 k = some g ∧ eqFile p1 p2 f g = true := by
  induction l1 with
  | nil =>
    intro _ k f hl
    simp [lookupA] at hl
  | cons hd tl ih =>
    intro h k f hl
    obtain ⟨k0, f0⟩ := hd
    simp only [eqFiles, Bool.and_eq_true] at h
    by_cases h0 : k0 = k
    · subst h0
      simp only [lookupA, if_pos] at hl
      cases hl
      rcases hg : lookupA l2 k0 with _ | g
      · rw [hg] at h
        simp at h
      · rw [hg] at h
        exact ⟨g, rfl, h.1⟩
    · simp only [lookupA, if_neg h0] at hl
      exact ih h.2 k f hl

theorem eqDirs_true_lookup (p1 p2 : Option String) (l1 l2 : List (String × DirN)) :
    eqDirs p1 p2 l1 l2 = true → ∀ k s, lookupA l1 k = some s →
      ∃ t, lookupA l2 k = some t ∧ eqDir p1 p2 s t = true := by
  induction l1 with
  | nil =>
    intro _ k s hl
    simp [lookupA] at hl
  | cons hd tl ih =>
    intro h k s hl
    obtain ⟨k0, s0⟩ := hd
    simp only [eqDirs, Bool.and_eq_true] at h
    by_cases h0 : k0 = k
    · subst h0
      simp only [lookupA, if_pos] at hl
      cases hl
      rcases ht : lookupA l2 k0 with _ | t
      · rw [ht] at h
        simp at h
      · rw [ht] at h
        exact ⟨t, rfl, h.1⟩
    · simp only [lookupA, if_neg h0] at hl
      exact ih h.2 k s hl

theorem eqFiles_of_lookup (p1 p2 : String) (l1 l2 : List (String × FileN))
    (h : ∀ kf, kf ∈ l1 → ∃ g, lookupA l2 kf.1 = some g ∧ eqFile p1 p2 kf.2 g = true) :
    eqFiles p1 p2 l1 l2 = true := by
  induction l1 with
  | nil => rfl
  | cons hd tl ih =>
    obtain ⟨k, f⟩ := hd
    obtain ⟨g, hg, heq⟩ := h (k, f) (List.mem_cons_self _ _)
    simp only [eqFiles, hg, heq, Bool.true_and]
    exact ih fun kf hm => h kf (List.mem_cons_of_mem _ hm)

theorem eqDirs_of_lookup (p1 p2 : Option String) (l1 l2 : List (String × DirN))
    (h : ∀ kd, kd ∈ l1 → ∃ t, lookupA l2 kd.1 = some t ∧ eqDir p1 p2 kd.2 t = true) :
    eqDirs p1 p2 l1 l2 = true := by
  induction l1 with
  | nil => rfl
  | cons hd tl ih =>
    obtain ⟨k, d⟩ := hd
    obtain ⟨t, ht, heq⟩ := h (k, d) (List.mem_cons_self _ _)
    simp only [eqDirs, ht, heq, Bool.true_and]
    exact ih fun kd hm => h kd (List.mem_cons_of_mem _ hm)

theorem eqFile_iff_spec (p1 p2 : String) (f g : FileN) :
    eqFile p1 p2 f g = true ↔ SpecEqFile p1 p2 f g := by
  simp only [eqFile, Bool.and_eq_true, beq_iff_eq, SpecEqFile]
  constructor
  · rintro ⟨⟨hb, hn⟩, hp⟩
    exact ⟨hn, hb, hp⟩
  · rintro ⟨hn, hb, hp⟩
    exact ⟨⟨hb, hn⟩, hp⟩

theorem keys_length_eq {α β : Type} (l1 : List (String × α)) (l2 : List (String × β))
    (hnd1 : nodupKeys l1 = true) (hnd2 : nodupKeys l2 = true)
    (hiff : ∀ k, (lookupA l1 k).isSome = true ↔ (lookupA l2 k).isSome = true) :
    l1.length = l2.length := by
  have hperm : List.Perm (l1.map Prod.fst) (l2.map Prod.fst) := by
    rw [List.perm_ext_iff_of_nodup (nodupKeys_nodup_map l1 hnd1) (nodupKeys_nodup_map l2 hnd2)]
    intro a
    rw [← lookupA_isSome_iff_mem_keys, ← lookupA_isSome_iff_mem_keys]
    exact hiff a
  simpa using hperm.length_eq

theorem specEq_of_eqDir :
    ∀ (c1 c2 : Option String) (d1 d2 : DirN),
      wfKeysDir d1 = true → wfKeysDir d2 = true →
      eqDir c1 c2 d1 d2 = true → SpecEqDir c1 c2 d1 d2 := by
  refine eqDir.induct
    (fun c1 c2 d1 d2 => wfKeysDir d1 = true → wfKeysDir d2 = true →
      eqDir c1 c2 d1 d2 = true → SpecEqDir c1 c2 d1 d2)
    (fun p1 p2 ds other => wfKeysDirs ds = true → wfKeysDirs other = true →
      eqDirs p1 p2 ds other = true →
      ∀ k s t, lookupA ds k = some s → lookupA other k = some t →
        SpecEqDir p1 p2 s t)
    ?_ ?_ ?_
  · intro c1 c2 n1 fs1 ds1 n2 fs2 ds2 ih hwf1 hwf2 heq
    simp only [wfKeysDir, Bool.and_eq_true] at hwf1 hwf2
    obtain ⟨⟨⟨⟨hndf1, hndd1⟩, hallf1⟩, halld1⟩, hwfds1⟩ := hwf1
    obtain ⟨⟨⟨⟨hndf2, hndd2⟩, hallf2⟩, halld2⟩, hwfds2⟩ := hwf2
    simp only [eqDir, Bool.and_eq_true, beq_iff_eq] at heq
    obtain ⟨⟨⟨⟨⟨hn, hlf⟩, hld⟩, hp⟩, hfs⟩, hds⟩ := heq
    refine SpecEqDir.intro hn hp ?_ ?_ ?_ ?_
    · refine keys_isSome_iff fs1 fs2 hndf1 hndf2 hlf ?_
      intro k hk
      rcases hf : lookupA fs1 k with _ | f
      · rw [hf] at hk; cases hk
      · obtain ⟨g, hg, _⟩ := eqFiles_true_lookup _ _ fs1 fs2 hfs k f hf
        rw [hg]; rfl
    · intro k f g hf hg
      obtain ⟨g', hg', heqf⟩ := eqFiles_true_lookup _ _ fs1 fs2 hfs k f hf
      rw [hg] at hg'
      cases hg'
      exact (eqFile_iff_spec _ _ f g).mp heqf
    · refine keys_isSome_iff ds1 ds2 hndd1 hndd2 hld ?_
      intro k hk
      rcases hs : lookupA ds1 k with _ | s
      · rw [hs] at hk; cases hk
      · obtain ⟨t, ht, _⟩ := eqDirs_true_lookup _ _ ds1 ds2 hds k s hs
        rw [ht]; rfl
    · intro k s t hs ht
      exact ih hwfds1 hwfds2 hds k s t hs ht
  · intro p1 p2 other hwf1 hwf2 heq k s t hl1 hl2
    simp [lookupA] at hl1
  · intro p1 p2 k d rest other ih1 ih2 hwf1 hwf2 heq q s t hl1 hl2
    simp only [wfKeysDirs, Bool.and_eq_true] at hwf1
    rcases hok : lookupA other k with _ | od
    · simp only [eqDirs, hok, Bool.false_and] at heq
      cases heq
    · simp only [eqDirs, hok, Bool.and_eq_true] at heq
      by_cases hkq : k = q
      · subst hkq
        simp only [lookupA, if_pos] at hl1
        cases hl1
        have hodt : od = t := by
          rw [hok] at hl2
          exact Option.some.inj hl2
        subst hodt
        exact ih1 od hwf1.1 (wfKeysDirs_mem other k od hwf2 (lookupA_mem other k od hok))
          heq.1
      · simp only [lookupA, if_neg hkq] at hl1
        exact ih2 hwf1.2 hwf2 heq.2 q s t hl1 hl2

theorem eqDir_of_specEq (c1 c2 : Option String) (d1 d2 : DirN)
    (h : SpecEqDir c1 c2 d1 d2) :
    wfKeysDir d1 = true → wfKeysDir d2 = true → eqDir c1 c2 d1 d2 = true := by
  induction h with
  | @intro c1x c2x n1 n2 fs1 fs2 ds1 ds2 hn hp hfkeys hfpair hdkeys hdpair ih =>
    intro hwf1 hwf2
    simp only [wfKeysDir, Bool.and_eq_true] at hwf1 hwf2
    obtain ⟨⟨⟨⟨hndf1, hndd1⟩, hallf1⟩, halld1⟩, hwfds1⟩ := hwf1
    obtain ⟨⟨⟨⟨hndf2, hndd2⟩, hallf2⟩, halld2⟩, hwfds2⟩ := hwf2
    simp only [eqDir, Bool.and_eq_true, beq_iff_eq]
    refine ⟨⟨⟨⟨⟨hn, ?_⟩, ?_⟩, hp⟩, ?_⟩, ?_⟩
    · exact keys_length_eq _ _ hndf1 hndf2 hfkeys
    · exact keys_length_eq _ _ hndd1 hndd2 hdkeys
    · refine eqFiles_of_lookup _ _ _ _ ?_
      intro kf hm
      have hl1 : lookupA fs1 kf.1 = some kf.2 := by
        rw [← Prod.mk.eta (p := kf)] at hm
        exact lookupA_of_mem fs1 kf.1 kf.2 hndf1 hm
      have hsome2 : (lookupA fs2 kf.1).isSome = true := (hfkeys kf.1).mp (by rw [hl1]; rfl)
      rcases hg : lookupA fs2 kf.1 with _ | g
      · rw [hg] at hsome2; cases hsome2
      · exact ⟨g, rfl, (eqFile_iff_spec _ _ kf.2 g).mpr (hfpair kf.1 kf.2 g hl1 hg)⟩
    · refine eqDirs_of_lookup _ _ _ _ ?_
      intro kd hm
      have hl1 : lookupA ds1 kd.1 = some kd.2 := by
        rw [← Prod.mk.eta (p := kd)] at hm
        exact lookupA_of_mem ds1 kd.1 kd.2 hndd1 hm
      have hsome2 : (lookupA ds2 kd.1).isSome = true := (hdkeys kd.1).mp (by rw [hl1]; rfl)
      rcases ht : lookupA ds2 kd.1 with _ | t
      · rw [ht] at hsome2; cases hsome2
      · refine ⟨t, rfl, ?_⟩
        exact ih kd.1 kd.2 t hl1 ht
          (wfKeysDirs_mem ds1 kd.1 kd.2 hwfds1 (lookupA_mem ds1 kd.1 kd.2 hl1))
          (wfKeysDirs_mem ds2 kd.1 t hwfds2 (lookupA_mem ds2 kd.1 t ht))

/-- **C4, counterexample.** The claim fails as stated: `File.__eq__` also
compares the nodes' full `path()`, so two file nodes with the same name and
the same decompressed content but sitting in directories with different paths
are unequal, although the claim says equality holds exactly under same name
and content. -/
theorem node_equality_cex :
    eqFile "a" "b" ⟨"x", ⟨0, []⟩, 0⟩ ⟨"x", ⟨0, []⟩, 0⟩ = false ∧
    (FileN.mk "x" ⟨0, []⟩ 0).name = (FileN.mk "x" ⟨0, []⟩ 0).name ∧
    (FileN.mk "x" ⟨0, []⟩ 0).data.bytes = (FileN.mk "x" ⟨0, []⟩ 0).data.bytes := by
  refine ⟨?_, rfl, rfl⟩
  decide

/-- **C4, amended.** File equality holds exactly when the two nodes have the
same name, the same decompressed bytes, and the same full `path()`; directory
equality (for dict-well-formed nodes, as all committed nodes are) is deep:
same name, same path, same child-name sets and pairwise-equal children
recursively, order-irrelevant — `SpecEqDir` states exactly this. -/
theorem node_equality (p1 p2 : String) (f g : FileN) (c1 c2 : Option String)
    (d1 d2 : DirN) (h1 : wfKeysDir d1 = true) (h2 : wfKeysDir d2 = true) :
    (eqFile p1 p2 f g = true ↔ SpecEqFile p1 p2 f g) ∧
    (eqDir c1 c2 d1 d2 = true ↔ SpecEqDir c1 c2 d1 d2) :=
  ⟨eqFile_iff_spec p1 p2 f g,
   ⟨fun h => specEq_of_eqDir c1 c2 d1 d2 h1 h2 h,
    fun h => eqDir_of_specEq c1 c2 d1 d2 h h1 h2⟩⟩

/-- Witness: the equality characterisation at two small concrete nodes. -/
theorem node_equality_witness :
    (eqFile "p" "p" ⟨"x", ⟨0, [1]⟩, 0⟩ ⟨"x", ⟨0, [1]⟩, 0⟩ = true ↔
      SpecEqFile "p" "p" ⟨"x", ⟨0, [1]⟩, 0⟩ ⟨"x", ⟨0, [1]⟩, 0⟩) ∧
    (eqDir none none (.mk "r" [("x", ⟨"x", ⟨0, [1]⟩, 0⟩)] [])
        (.mk "r" [("x", ⟨"x", ⟨3, [1]⟩, 9⟩)] []) = true ↔
      SpecEqDir none none (.mk "r" [("x", ⟨"x", ⟨0, [1]⟩, 0⟩)] [])
        (.mk "r" [("x", ⟨"x", ⟨3, [1]⟩, 9⟩)] [])) :=
  node_equality "p" "p" ⟨"x", ⟨0, [1]⟩, 0⟩ ⟨"x", ⟨0, [1]⟩, 0⟩ none none
    (.mk "r" [("x", ⟨"x", ⟨0, [1]⟩, 0⟩)] []) (.mk "r" [("x", ⟨"x", ⟨3, [1]⟩, 9⟩)] [])
    (by simp [wfKeysDir, wfKeysDirs, nodupKeys, lookupA])
    (by simp [wfKeysDir, wfKeysDirs, nodupKeys, lookupA])
